import Mathlib

/-!
Verification development for the transit-network graph program in
`estacao.py`.

The program models a multi-line transport network as a directed weighted
multigraph and answers routing queries (reachability, pure-time shortest
path via Dijkstra, and a transfer-aware fastest route whose search state is
`(station, current line, transfers used)`).

Embedding conventions:
* Python floats (durations, waits) are embedded as rationals `ℚ`; the
  `float('inf')` no-path time is embedded as `⊤` in `WithTop ℚ`.
* Python `dict`s are embedded as insertion-ordered association lists with
  the exact CPython semantics: insertion of a fresh key appends at the end,
  updating an existing key replaces its value in place, deletion removes
  the entry.
* The two search loops are embedded with an explicit fuel parameter; a
  result of `none` means the loop did not finish within the given fuel.
* In the main embedding the `heapq` priority queue is abstracted to a list
  from which the pop operation extracts the earliest-pushed entry of
  minimal time.  (A second, lower-level embedding further down models the
  CPython binary heap and its element comparisons exactly; it is used for
  the claim about failure behaviour, where the heap's tuple comparison is
  observable.)
* Raised exceptions are embedded as `Except` errors.
-/

set_option maxSynthPendingDepth 5

namespace Estacao

/-- Python dictionary lookup on an insertion-ordered association list. -/
def lookup {α β : Type} [DecidableEq α] : List (α × β) → α → Option β
  | [], _ => none
  | (k, v) :: rest, a => if k = a then some v else lookup rest a

/-- Python dictionary assignment `d[k] = v`: replaces the value of an
existing key in place, otherwise appends the new binding at the end. -/
def setD {α β : Type} [DecidableEq α] : List (α × β) → α → β → List (α × β)
  | [], a, b => [(a, b)]
  | (k, v) :: rest, a, b => if k = a then (a, b) :: rest else (k, v) :: setD rest a b

/-- Python dictionary deletion `del d[k]`: removes the binding of `k`. -/
def delD {α β : Type} [DecidableEq α] : List (α × β) → α → List (α × β)
  | [], _ => []
  | (k, v) :: rest, a => if k = a then rest else (k, v) :: delD rest a

/-- Python membership test `k in d`. -/
def containsD {α β : Type} [DecidableEq α] (d : List (α × β)) (a : α) : Bool :=
  (lookup d a).isSome

/-- A directed connection record, as in the `Edge` dataclass:
destination station, travel time in minutes, optional line label. -/
structure Edge where
  to_station : String
  time : ℚ
  line : Option String
deriving DecidableEq, Repr

/-- The graph store, as in class `TransportGraph`: adjacency dictionary
from station id to outgoing edge list, per-station transfer-wait override
dictionary, and the global default transfer wait. -/
structure TransportGraph where
  adj : List (String × List Edge)
  transfer_waits : List (String × ℚ)
  default_transfer_wait : ℚ
deriving DecidableEq, Repr

namespace TransportGraph

/-- `TransportGraph.__init__(default_transfer_wait=4.0)`. -/
def init (default_transfer_wait : ℚ) : TransportGraph :=
  { adj := [], transfer_waits := [], default_transfer_wait := default_transfer_wait }

/-- `add_station(station_id, transfer_wait=None)`: creates the station if
absent; if a transfer wait is given, sets/overwrites the override. -/
def add_station (g : TransportGraph) (station_id : String)
    (transfer_wait : Option ℚ) : TransportGraph :=
  let adj := if containsD g.adj station_id then g.adj else setD g.adj station_id []
  let tw := match transfer_wait with
    | none => g.transfer_waits
    | some w => setD g.transfer_waits station_id w
  { g with adj := adj, transfer_waits := tw }

/-- `remove_station(station_id)`: no-op if absent; otherwise deletes the
station, purges every edge pointing to it, and drops its wait override. -/
def remove_station (g : TransportGraph) (station_id : String) : TransportGraph :=
  if ¬ containsD g.adj station_id then g
  else
    let adj := (delD g.adj station_id).map
      (fun p => (p.1, p.2.filter (fun e => e.to_station ≠ station_id)))
    let tw := if containsD g.transfer_waits station_id then
        delD g.transfer_waits station_id
      else g.transfer_waits
    { g with adj := adj, transfer_waits := tw }

/-- `add_connection(from_station, to_station, time, line=None,
bidirectional=True)`: auto-creates missing endpoints, appends the forward
edge, and the mirrored edge when bidirectional. -/
def add_connection (g : TransportGraph) (from_station to_station : String)
    (time : ℚ) (line : Option String) (bidirectional : Bool) : TransportGraph :=
  let g := if ¬ containsD g.adj from_station then add_station g from_station none else g
  let g := if ¬ containsD g.adj to_station then add_station g to_station none else g
  let adj := setD g.adj from_station
    ((lookup g.adj from_station).getD [] ++ [Edge.mk to_station time line])
  let adj := if bidirectional then
      setD adj to_station
        ((lookup adj to_station).getD [] ++ [Edge.mk from_station time line])
    else adj
  { g with adj := adj }

/-- The edge-removal filter of `remove_connection`: an edge is dropped when
its destination matches and, if a line is given, its line matches too. -/
def removeMatch (to_station : String) (line : Option String) (e : Edge) : Bool :=
  ¬ (e.to_station = to_station ∧ (line = none ∨ e.line = line))

/-- `remove_connection(from_station, to_station, line=None,
bidirectional=True)`: filters matching edges out of the source's list and,
when bidirectional, mirrors the removal. No-op on absent stations. -/
def remove_connection (g : TransportGraph) (from_station to_station : String)
    (line : Option String) (bidirectional : Bool) : TransportGraph :=
  let adj := if containsD g.adj from_station then
      setD g.adj from_station
        (((lookup g.adj from_station).getD []).filter (removeMatch to_station line))
    else g.adj
  let adj := if bidirectional ∧ containsD adj to_station then
      setD adj to_station
        (((lookup adj to_station).getD []).filter (removeMatch from_station line))
    else adj
  { g with adj := adj }

/-- `routes_from(station_id)`: snapshot of the outgoing edges, empty when
the station does not exist. -/
def routes_from (g : TransportGraph) (station_id : String) : List Edge :=
  (lookup g.adj station_id).getD []

/-- `stations()`: all station identifiers in insertion order. -/
def stations (g : TransportGraph) : List String :=
  g.adj.map (·.1)

end TransportGraph

/-- The edges of an adjacency mapping, flattened as (source, edge) pairs in
dictionary and list order. -/
def edgesOf (d : List (String × List Edge)) : List (String × Edge) :=
  d.flatMap (fun p => p.2.map (fun e => (p.1, e)))

/-- All edges of the store.  This is the "stored edge set" of the
round-trip claim. -/
def edgeList (g : TransportGraph) : List (String × Edge) :=
  edgesOf g.adj

/-- A raised Python exception. -/
inductive PyErr where
  | valueError : String → PyErr
  | typeError : String → PyErr
deriving DecidableEq, Repr

deriving instance DecidableEq for Except

/-- The unknown-station `ValueError` message raised by both path searches. -/
def unknownStationMsg : String := "Estação origem ou destino inexistente"

/-- A step of a returned route: `(station, line used to arrive there)`. -/
abbrev PathStep := String × Option String

/-- A query result: cumulative time (`⊤` embeds `float('inf')`) and path. -/
abbrev RouteResult := WithTop ℚ × List PathStep

/-- Extract the earliest-pushed entry of minimal priority from the frontier
list, together with the remaining frontier.  This abstracts `heappop` on
the `heapq` binary heap: the popped entry always has minimal time; among
equal times the heap's deeper tie-breaking is an implementation artifact,
abstracted here to first-pushed-first. -/
def popMin {α : Type} (tm : α → ℚ) : List α → Option (α × List α)
  | [] => none
  | e :: rest =>
    match popMin tm rest with
    | none => some (e, rest)
    | some (m, rest') => if tm m < tm e then some (m, e :: rest') else some (e, rest)

/-- A frontier entry of `shortest_path`: the tuple
`(time_so_far, station, prev_station, line_used)`. -/
structure SPEntry where
  time : ℚ
  station : String
  prev_station : Option String
  line : Option String
deriving DecidableEq, Repr

/-- The predecessor-walk of `shortest_path`'s path reconstruction: from the
destination, follow `prev` links until the synthetic `None` predecessor,
prepending `(station, line used to enter it)` at each step (the Python code
appends and reverses, which yields the same list).  `none` signals a
missing `prev` entry or exhausted fuel, neither of which occurs in runs of
the algorithm. -/
def spWalk (prev : List (String × (Option String × Option String))) :
    ℕ → Option String → List PathStep → Option (List PathStep)
  | _, none, acc => some acc
  | 0, some _, _ => none
  | n + 1, some c, acc =>
    match lookup prev c with
    | none => none
    | some pst => spWalk prev n pst.1 ((c, pst.2) :: acc)

/-- The post-loop part of `shortest_path`: no-path result when the
destination was never finalized, otherwise `dist[dst]` and the
reconstructed path. -/
def spFinish (dst : String) (dist : List (String × ℚ))
    (prev : List (String × (Option String × Option String))) : Option RouteResult :=
  if ¬ containsD prev dst then some (⊤, [])
  else
    match spWalk prev (prev.length + 1) (some dst) [] with
    | none => none
    | some path =>
      match lookup dist dst with
      | none => none
      | some t => some ((t : WithTop ℚ), path)

/-- The edge-relaxation fold of `shortest_path`'s loop body: for each
outgoing edge, if the new time beats the known estimate (or none is
known), record it in `dist` and push an improved frontier entry. -/
def spRelax (cur : String) (time_so_far : ℚ) :
    List Edge → List SPEntry × List (String × ℚ) → List SPEntry × List (String × ℚ)
  | [], acc => acc
  | e :: es, (pq, dist) =>
    let new_time := time_so_far + e.time
    let keep : Bool := match lookup dist e.to_station with
      | none => true
      | some d => new_time < d
    if keep then
      spRelax cur time_so_far es
        (pq ++ [SPEntry.mk new_time e.to_station (some cur) e.line],
          setD dist e.to_station new_time)
    else
      spRelax cur time_so_far es (pq, dist)

/-- The main loop of `shortest_path`, fueled.  Pops the minimal frontier
entry; entries for already-finalized stations are skipped; a fresh station
is finalized in `prev`; on finalizing the destination the loop breaks to
the post-processing; otherwise its outgoing edges are relaxed. -/
def spLoop (g : TransportGraph) (dst : String) :
    ℕ → List SPEntry → List (String × ℚ) →
    List (String × (Option String × Option String)) → Option RouteResult
  | 0, _, _, _ => none
  | n + 1, pq, dist, prev =>
    match popMin (·.time) pq with
    | none => spFinish dst dist prev
    | some (e, pq') =>
      if containsD prev e.station then spLoop g dst n pq' dist prev
      else
        let prev' := setD prev e.station (e.prev_station, e.line)
        if e.station = dst then spFinish dst dist prev'
        else
          let relaxed := spRelax e.station e.time (g.routes_from e.station) (pq', dist)
          spLoop g dst n relaxed.1 relaxed.2 prev'

/-- `shortest_path(src, dst)`: raises the unknown-station `ValueError` when
either endpoint is absent; otherwise runs the Dijkstra loop seeded with
`(0.0, src, None, None)`, `dist = {src: 0.0}` and empty `prev`. -/
def shortest_path (g : TransportGraph) (src dst : String) (fuel : ℕ) :
    Option (Except PyErr RouteResult) :=
  if ¬ containsD g.adj src ∨ ¬ containsD g.adj dst then
    some (Except.error (PyErr.valueError unknownStationMsg))
  else
    (spLoop g dst fuel [SPEntry.mk 0 src none none] [(src, 0)] []).map Except.ok

/-- A frontier entry of `fastest_route_with_transfers`: the tuple
`(time_so_far, station, current_line, transfers_used)`. -/
structure FREntry where
  time : ℚ
  station : String
  line : Option String
  transfers : ℕ
deriving DecidableEq, Repr

/-- A search-state key `(station, current_line, transfers_used)`. -/
abbrev FRKey := String × Option String × ℕ

/-- The key of a frontier entry. -/
def FREntry.key (e : FREntry) : FRKey := (e.station, e.line, e.transfers)

instance : DecidableEq (FRKey × (FRKey × Option String)) :=
  fun a b => instDecidableEqProd a b

instance : DecidableEq (List (FRKey × ℚ) × List (FRKey × (FRKey × Option String))) :=
  fun a b => instDecidableEqProd a b

instance : DecidableEq
    (List FREntry × List (FRKey × ℚ) × List (FRKey × (FRKey × Option String))) :=
  fun a b => instDecidableEqProd a b

/-- The numerical tolerance `1e-9` of the transfer-aware search. -/
def eps : ℚ := 1 / 1000000000

/-- The transfer-penalty rule of `fastest_route_with_transfers` (the
`added_wait` / `new_transfers` computation of its loop body): with no
current line, no wait and no increment; with a current line and a labeled
edge of a different line, the departing station's wait override (else the
default) is added and the transfer count incremented; otherwise nothing. -/
def transferStep (g : TransportGraph) (cur : String)
    (cur_line edge_line : Option String) (transfers_used : ℕ) : ℚ × ℕ :=
  match cur_line with
  | none => (0, transfers_used)
  | some cl =>
    match edge_line with
    | none => (0, transfers_used)
    | some el =>
      if cl ≠ el then
        ((lookup g.transfer_waits cur).getD g.default_transfer_wait, transfers_used + 1)
      else (0, transfers_used)

/-- The parent-walk of `fastest_route_with_transfers`' path reconstruction:
follow parent links (keyed by full state) while present, prepending
`(station, line used to arrive)`. -/
def frWalk (parent : List (FRKey × (FRKey × Option String))) :
    ℕ → FRKey → List PathStep → Option (List PathStep)
  | 0, _, _ => none
  | n + 1, k, acc =>
    match lookup parent k with
    | none => some acc
    | some pk => frWalk parent n pk.1 ((k.1, pk.2) :: acc)

/-- The edge-relaxation fold of `fastest_route_with_transfers`' loop body:
compute the wait penalty and new transfer count, drop the edge when the cap
would be exceeded, and accept the new state only when it improves the best
known time for its exact key beyond the `1e-9` tolerance. -/
def frRelax (g : TransportGraph) (max_transfers : Option ℕ) (e : FREntry) :
    List Edge →
    List FREntry × List (FRKey × ℚ) × List (FRKey × (FRKey × Option String)) →
    List FREntry × List (FRKey × ℚ) × List (FRKey × (FRKey × Option String))
  | [], acc => acc
  | ed :: es, (pq, best, parent) =>
    let pen := transferStep g e.station e.line ed.line e.transfers
    let new_time := e.time + pen.1 + ed.time
    let capped : Bool := match max_transfers with
      | none => false
      | some m => pen.2 > m
    if capped then frRelax g max_transfers e es (pq, best, parent)
    else
      let new_key : FRKey := (ed.to_station, ed.line, pen.2)
      let improves : Bool := match lookup best new_key with
        | none => true
        | some b => new_time + eps < b
      if improves then
        frRelax g max_transfers e es
          (pq ++ [FREntry.mk new_time ed.to_station ed.line pen.2],
            setD best new_key new_time,
            setD parent new_key (e.key, ed.line))
      else frRelax g max_transfers e es (pq, best, parent)

/-- The main loop of `fastest_route_with_transfers`, fueled.  Pops the
minimal frontier entry; a stale entry (whose state already has a best time
more than `1e-9` below the entry's) is skipped; popping any state at the
destination station returns its time and reconstructed path; otherwise the
outgoing edges are relaxed.  An exhausted frontier is the no-path result. -/
def frLoop (g : TransportGraph) (src dst : String) (max_transfers : Option ℕ) :
    ℕ → List FREntry → List (FRKey × ℚ) →
    List (FRKey × (FRKey × Option String)) → Option RouteResult
  | 0, _, _, _ => none
  | n + 1, pq, best, parent =>
    match popMin (·.time) pq with
    | none => some (⊤, [])
    | some (e, pq') =>
      let stale : Bool := match lookup best e.key with
        | none => false
        | some b => b < e.time - eps
      if stale then frLoop g src dst max_transfers n pq' best parent
      else if e.station = dst then
        match frWalk parent (parent.length + 1) e.key [] with
        | none => none
        | some p => some ((e.time : WithTop ℚ), (src, none) :: p)
      else
        let relaxed := frRelax g max_transfers e (g.routes_from e.station) (pq', best, parent)
        frLoop g src dst max_transfers n relaxed.1 relaxed.2.1 relaxed.2.2

/-- `fastest_route_with_transfers(src, dst, max_transfers=None)`: raises
the unknown-station `ValueError` when either endpoint is absent; otherwise
runs the state-augmented search seeded with `(0.0, src, None, 0)`,
`best = {(src, None, 0): 0.0}` and empty parent table. -/
def fastest_route_with_transfers (g : TransportGraph) (src dst : String)
    (max_transfers : Option ℕ) (fuel : ℕ) : Option (Except PyErr RouteResult) :=
  if ¬ containsD g.adj src ∨ ¬ containsD g.adj dst then
    some (Except.error (PyErr.valueError unknownStationMsg))
  else
    (frLoop g src dst max_transfers fuel [FREntry.mk 0 src none 0]
      [((src, none, 0), 0)] []).map Except.ok

/-! ### A lower-level embedding of the frontier: CPython's `heapq`

The main embedding abstracts the priority queue to minimal-time
extraction.  That abstraction hides one observable behaviour of the real
program: `heapq` compares whole frontier tuples
`(time, station, current_line, transfers)` lexicographically with Python
`<`, and comparing a `str` line with `None` raises `TypeError`.  The
definitions below model the heap exactly — `heappush`/`heappop` with
`_siftdown`/`_siftup` as in CPython's `heapq.py` — with element
comparisons in an `Except` monad, so that this failure mode is captured. -/

/-- Python `<` on two frontier tuples: lexicographic, taking the first
pair of components that are not `==` and comparing them with `<`; for the
line component, `None` and a string are never `==`, and ordering them
raises `TypeError` (left operand's type named first). -/
def pyTupleLt (x y : FREntry) : Except PyErr Bool :=
  if x.time ≠ y.time then Except.ok (decide (x.time < y.time))
  else if x.station ≠ y.station then Except.ok (decide (x.station < y.station))
  else
    match x.line, y.line with
    | some a, some b =>
      if a ≠ b then Except.ok (decide (a < b))
      else Except.ok (decide (x.transfers < y.transfers))
    | none, none => Except.ok (decide (x.transfers < y.transfers))
    | some _, none =>
      Except.error (PyErr.typeError
        "'<' not supported between instances of 'str' and 'NoneType'")
    | none, some _ =>
      Except.error (PyErr.typeError
        "'<' not supported between instances of 'NoneType' and 'str'")

/-- `heapq._siftdown(heap, startpos, pos)`: walk from `pos` towards the
root, moving parents down while `newitem` compares below them, then place
`newitem`.  Fueled; the fuel is spent once per level climbed. -/
def siftdownLoop (startpos : ℕ) (newitem : FREntry) :
    ℕ → ℕ → List FREntry → Option (Except PyErr (List FREntry))
  | 0, _, _ => none
  | fuel + 1, pos, heap =>
    if startpos < pos then
      let parentpos := (pos - 1) / 2
      match heap.get? parentpos with
      | none => none
      | some parent =>
        match pyTupleLt newitem parent with
        | Except.error err => some (Except.error err)
        | Except.ok true => siftdownLoop startpos newitem fuel parentpos (heap.set pos parent)
        | Except.ok false => some (Except.ok (heap.set pos newitem))
    else some (Except.ok (heap.set pos newitem))

/-- `heapq.heappush(heap, item)`: append, then sift down from the last
position. -/
def heappushPy (heap : List FREntry) (item : FREntry) :
    Option (Except PyErr (List FREntry)) :=
  let h2 := heap ++ [item]
  siftdownLoop 0 item (h2.length + 1) (h2.length - 1) h2

/-- The loop of `heapq._siftup(heap, pos)`: walk down the tree, always
promoting the smaller child, until a leaf, then place `newitem` there and
sift it down towards `startpos`.  Fueled; the fuel is spent once per level
descended. -/
def siftupLoop (endpos startpos : ℕ) (newitem : FREntry) :
    ℕ → ℕ → List FREntry → Option (Except PyErr (List FREntry))
  | 0, _, _ => none
  | fuel + 1, pos, heap =>
    let childpos := 2 * pos + 1
    if childpos < endpos then
      let rightpos := childpos + 1
      let cps : Option (Except PyErr ℕ) :=
        if rightpos < endpos then
          match heap.get? childpos, heap.get? rightpos with
          | some c, some r =>
            match pyTupleLt c r with
            | Except.error err => some (Except.error err)
            | Except.ok b => some (Except.ok (if b then childpos else rightpos))
          | _, _ => none
        else some (Except.ok childpos)
      match cps with
      | none => none
      | some (Except.error err) => some (Except.error err)
      | some (Except.ok cp) =>
        match heap.get? cp with
        | none => none
        | some c => siftupLoop endpos startpos newitem fuel cp (heap.set pos c)
    else siftdownLoop startpos newitem (pos + 1) pos (heap.set pos newitem)

/-- `heapq.heappop(heap)`: pop the last element; if the heap is then
empty it is the result, otherwise it replaces the root, which is returned
after sifting the replacement up. -/
def heappopPy (heap : List FREntry) :
    Option (Except PyErr (FREntry × List FREntry)) :=
  match heap.getLast? with
  | none => none
  | some lastelt =>
    let rest := heap.dropLast
    match rest.get? 0 with
    | none => some (Except.ok (lastelt, []))
    | some returnitem =>
      let h2 := rest.set 0 lastelt
      match h2.get? 0 with
      | none => none
      | some newitem =>
        match siftupLoop h2.length 0 newitem (h2.length + 1) 0 h2 with
        | none => none
        | some (Except.error err) => some (Except.error err)
        | some (Except.ok h3) => some (Except.ok (returnitem, h3))

/-- The edge-relaxation fold of the loop body, as `frRelax`, but pushing
through the real `heapq` heap so that comparison errors propagate. -/
def frRelaxPy (g : TransportGraph) (max_transfers : Option ℕ) (e : FREntry) :
    List Edge →
    List FREntry × List (FRKey × ℚ) × List (FRKey × (FRKey × Option String)) →
    Option (Except PyErr
      (List FREntry × List (FRKey × ℚ) × List (FRKey × (FRKey × Option String))))
  | [], acc => some (Except.ok acc)
  | ed :: es, (pq, best, parent) =>
    let pen := transferStep g e.station e.line ed.line e.transfers
    let new_time := e.time + pen.1 + ed.time
    let capped : Bool := match max_transfers with
      | none => false
      | some m => pen.2 > m
    if capped then frRelaxPy g max_transfers e es (pq, best, parent)
    else
      let new_key : FRKey := (ed.to_station, ed.line, pen.2)
      let improves : Bool := match lookup best new_key with
        | none => true
        | some b => new_time + eps < b
      if improves then
        match heappushPy pq (FREntry.mk new_time ed.to_station ed.line pen.2) with
        | none => none
        | some (Except.error err) => some (Except.error err)
        | some (Except.ok pq2) =>
          frRelaxPy g max_transfers e es
            (pq2, setD best new_key new_time, setD parent new_key (e.key, ed.line))
      else frRelaxPy g max_transfers e es (pq, best, parent)

/-- The main loop of `fastest_route_with_transfers` over the real heap. -/
def frLoopPy (g : TransportGraph) (src dst : String) (max_transfers : Option ℕ) :
    ℕ → List FREntry → List (FRKey × ℚ) →
    List (FRKey × (FRKey × Option String)) → Option (Except PyErr RouteResult)
  | 0, _, _, _ => none
  | n + 1, pq, best, parent =>
    match pq with
    | [] => some (Except.ok (⊤, []))
    | _ :: _ =>
      match heappopPy pq with
      | none => none
      | some (Except.error err) => some (Except.error err)
      | some (Except.ok (e, pq')) =>
        let stale : Bool := match lookup best e.key with
          | none => false
          | some b => b < e.time - eps
        if stale then frLoopPy g src dst max_transfers n pq' best parent
        else if e.station = dst then
          match frWalk parent (parent.length + 1) e.key [] with
          | none => none
          | some p => some (Except.ok ((e.time : WithTop ℚ), (src, none) :: p))
        else
          match frRelaxPy g max_transfers e (g.routes_from e.station)
              (pq', best, parent) with
          | none => none
          | some (Except.error err) => some (Except.error err)
          | some (Except.ok acc) =>
            frLoopPy g src dst max_transfers n acc.1 acc.2.1 acc.2.2

/-- `fastest_route_with_transfers` over the exact CPython heap model. -/
def fastest_route_with_transfersPy (g : TransportGraph) (src dst : String)
    (max_transfers : Option ℕ) (fuel : ℕ) : Option (Except PyErr RouteResult) :=
  if ¬ containsD g.adj src ∨ ¬ containsD g.adj dst then
    some (Except.error (PyErr.valueError unknownStationMsg))
  else
    frLoopPy g src dst max_transfers fuel [FREntry.mk 0 src none 0]
      [((src, none, 0), 0)] []

/-! ### Concrete graphs used by the claims -/

/-- The concrete scenario graph: stations A, B, C; bidirectional edge A-B
of duration 5 on line "1"; bidirectional edge B-C of duration 5 on line
"2"; default transfer wait 4. -/
def GABC : TransportGraph :=
  TransportGraph.add_connection
    (TransportGraph.add_connection (TransportGraph.init 4) "A" "B" 5 (some "1") true)
    "B" "C" 5 (some "2") true

/-- A graph mixing labeled and unlabeled connections: A→B on line "1",
B→C unlabeled, C→D on line "2", all of duration 5, default wait 4. -/
def Gmixed : TransportGraph :=
  TransportGraph.add_connection
    (TransportGraph.add_connection
      (TransportGraph.add_connection (TransportGraph.init 4) "A" "B" 5 (some "1") false)
      "B" "C" 5 none false)
    "C" "D" 5 (some "2") false

/-- A graph with a pre-existing edge A→B of duration 7 on line "1". -/
def Gpre : TransportGraph :=
  TransportGraph.add_connection (TransportGraph.init 4) "A" "B" 7 (some "1") false

/-- A graph with two parallel bidirectional connections between A and B of
equal duration 5, one unlabeled and one on line "1". -/
def Gcrash : TransportGraph :=
  TransportGraph.add_connection
    (TransportGraph.add_connection (TransportGraph.init 4) "A" "B" 5 none true)
    "A" "B" 5 (some "1") true

/-- A graph with two zero-duration self-loops at A on distinct lines "1"
and "2", a zero transfer wait at A, and an isolated station B. -/
def Gloop : TransportGraph :=
  TransportGraph.add_connection
    (TransportGraph.add_connection
      (TransportGraph.add_station
        (TransportGraph.add_station (TransportGraph.init 4) "A" (some 0)) "B" none)
      "A" "A" 0 (some "1") false)
    "A" "A" 0 (some "2") false

/-- The transfer-aware search diverges on the given query: no amount of
fuel makes the loop return. -/
def frwtDiverges (g : TransportGraph) (src dst : String)
    (max_transfers : Option ℕ) : Prop :=
  ∀ fuel : ℕ, fastest_route_with_transfers g src dst max_transfers fuel = none

/-! ### Path semantics, used to state optimality -/

/-- `walksB g a es b`: the edge records `es`, each drawn from its source's
stored outgoing list, form a directed path from `a` to `b`. -/
def walksB (g : TransportGraph) : String → List Edge → String → Bool
  | a, [], b => a = b
  | a, e :: es, b => (e ∈ (lookup g.adj a).getD []) && walksB g e.to_station es b

/-- The summed duration of a list of edge records. -/
def pathCost (es : List Edge) : ℚ :=
  (es.map (·.time)).sum

/-- All stored edge durations are non-negative. -/
def nonnegDurations (g : TransportGraph) : Prop :=
  ∀ p ∈ g.adj, ∀ e ∈ p.2, 0 ≤ e.time

/-- All transfer waits (overrides and default) are non-negative. -/
def nonnegWaits (g : TransportGraph) : Prop :=
  (∀ p ∈ g.transfer_waits, 0 ≤ p.2) ∧ 0 ≤ g.default_transfer_wait

instance (g : TransportGraph) : Decidable (nonnegDurations g) := by
  unfold nonnegDurations; infer_instance

instance (g : TransportGraph) : Decidable (nonnegWaits g) := by
  unfold nonnegWaits; infer_instance

/-! ### Referential integrity -/

/-- Every station appearing as the destination of an edge stored in the
adjacency mapping `d` is itself a key of `d`. -/
def edgeClosedL (d : List (String × List Edge)) : Prop :=
  ∀ p ∈ d, ∀ e ∈ p.2, containsD d e.to_station = true

/-- Every station appearing as the destination of a stored edge is itself
a key of the adjacency mapping. -/
def edgeClosed (g : TransportGraph) : Prop :=
  edgeClosedL g.adj

instance (d : List (String × List Edge)) : Decidable (edgeClosedL d) := by
  unfold edgeClosedL; infer_instance

instance (g : TransportGraph) : Decidable (edgeClosed g) := by
  unfold edgeClosed; infer_instance

/-- The frontier entries whose transfer count fits under the cap `k`: the
common part of the frontiers of two searches run with caps `k` and `k + 1`. -/
def frKeep (k : ℕ) (x : FREntry) : Bool := x.transfers ≤ k

/-- The stale-entry test of `fastest_route_with_transfers`' loop, as a named
function: the popped entry's state already has a best time more than `1e-9`
below the entry's time. -/
def frStale (best : List (FRKey × ℚ)) (e : FREntry) : Bool :=
  match lookup best e.key with
  | none => false
  | some b => b < e.time - eps

/-- The acceptance test of `fastest_route_with_transfers`' relaxation, as a
named function: the candidate time beats the best known time for the state
key by more than `1e-9` (or no time is known). -/
def frImproves (best : List (FRKey × ℚ)) (nk : FRKey) (nt : ℚ) : Bool :=
  match lookup best nk with
  | none => true
  | some b => nt + eps < b

/-- The current line after traversing the edges `es` starting on line
`cl`: each traversed edge sets the current line to its own label (labeled
or not), exactly as the search pushes `edge_line` as the new `cur_line`. -/
def lineAfter : Option String → List Edge → Option String
  | cl, [] => cl
  | _, e :: es => lineAfter e.line es

/-- The transfer increment of a single edge traversal: 1 exactly when the
current line and the edge's line are both present and differ (the
`new_transfers += 1` rule of the loop body), otherwise 0. -/
def transInc (cl el : Option String) : ℕ :=
  match cl, el with
  | some c, some l => if c ≠ l then 1 else 0
  | _, _ => 0

/-- The number of transfers accumulated along the edges `es` starting on
line `cl`: the sum of the per-edge increments, threading the current
line. -/
def walkTrans : Option String → List Edge → ℕ
  | _, [] => 0
  | cl, e :: es => transInc cl e.line + walkTrans e.line es

/-- The stations that can ever appear in a search frontier: the source
plus every stored edge destination. -/
def stationUniv (g : TransportGraph) (src : String) : List String :=
  src :: (edgeList g).map (fun p => p.2.to_station)

/-- The line labels that can ever appear in a search state: `none` plus
every stored edge label. -/
def lineUniv (g : TransportGraph) : List (Option String) :=
  none :: (edgeList g).map (fun p => p.2.line)

/-- All state keys the search capped at `k` transfers can ever record:
frontier stations × frontier lines × transfer counts up to `k`. -/
def keyUniv (g : TransportGraph) (src : String) (k : ℕ) : List FRKey :=
  (stationUniv g src).flatMap (fun s =>
    (lineUniv g).flatMap (fun l => (List.range (k + 1)).map (fun t => (s, l, t))))

/-- The number of universe keys not yet recorded in the best-time table:
the leading component of the capped search's termination measure (it drops
whenever a state key is recorded for the first time). -/
def newKeys (g : TransportGraph) (src : String) (k : ℕ)
    (best : List (FRKey × ℚ)) : ℕ :=
  (keyUniv g src k).countP (fun key => ! containsD best key)

/-- The summed `1e-9`-granularity heights of the recorded best times: the
middle component of the capped search's termination measure (each accepted
improvement beats the old value by more than `1e-9`, lowering its key's
height). -/
def bestFloors (best : List (FRKey × ℚ)) : ℕ :=
  (best.map (fun p => ⌊p.2 / eps⌋₊)).sum

/-- The number of universe stations not yet finalized by the Dijkstra
loop. -/
def unfinCount (g : TransportGraph) (src : String)
    (prev : List (String × (Option String × Option String))) : ℕ :=
  (stationUniv g src).countP (fun s => ! containsD prev s)

/-- The termination measure of the Dijkstra loop: finalizations are
bounded by the station universe, and each one pushes at most the whole
edge store onto the frontier. -/
def spMeasure (g : TransportGraph) (src : String) (pq : List SPEntry)
    (prev : List (String × (Option String × Option String))) : ℕ :=
  unfinCount g src prev * ((edgeList g).length + 1) + pq.length

/-- A frontier state of the search capped at `k` transfers is realizable:
some stored walk from the source reaches its station with exactly its line
and transfer count, and the count fits under the cap. -/
def frReal (g : TransportGraph) (src : String) (k : ℕ) (x : FREntry) : Prop :=
  (∃ es, walksB g src es x.station = true ∧ lineAfter none es = x.line ∧
    walkTrans none es = x.transfers) ∧ x.transfers ≤ k

/-! ## Theorems -/

/-! ### Association-list (Python dict) lemmas -/

section DictLemmas

variable {α β : Type} [DecidableEq α]

theorem lookup_setD (d : List (α × β)) (k a : α) (v : β) :
    lookup (setD d k v) a = if k = a then some v else lookup d a := by
  induction d with
  | nil => simp [setD, lookup]
  | cons p rest ih =>
    obtain ⟨k', v'⟩ := p
    by_cases h : k' = k
    · subst h
      simp only [setD, if_pos rfl, lookup]
      by_cases h2 : k' = a <;> simp [h2]
    · simp only [setD, if_neg h, lookup]
      by_cases h2 : k' = a
      · have hka : ¬ k = a := fun hh => h (by rw [h2, hh])
        simp [h2, hka]
      · simp [h2, ih]

theorem containsD_setD (d : List (α × β)) (k a : α) (v : β) :
    containsD (setD d k v) a = (decide (k = a) || containsD d a) := by
  by_cases h : k = a <;> simp [containsD, lookup_setD, h]

theorem setD_setD_same (d : List (α × β)) (k : α) (v w : β) :
    setD (setD d k v) k w = setD d k w := by
  induction d with
  | nil => simp [setD]
  | cons p rest ih =>
    obtain ⟨k', v'⟩ := p
    by_cases h : k' = k
    · subst h
      simp [setD]
    · simp [setD, if_neg h, ih]

theorem setD_comm (d : List (α × β)) (k k' : α) (v w : β) (h : k ≠ k')
    (hk : containsD d k = true) (hk' : containsD d k' = true) :
    setD (setD d k v) k' w = setD (setD d k' w) k v := by
  induction d with
  | nil => simp [containsD, lookup] at hk
  | cons p rest ih =>
    obtain ⟨a, b⟩ := p
    by_cases ha : a = k
    · subst ha
      have ha' : ¬ a = k' := fun hh => h (hh ▸ rfl)
      simp [setD, if_pos rfl, if_neg ha', if_neg (Ne.symm h)]
    · by_cases ha' : a = k'
      · subst ha'
        simp [setD, if_pos rfl, if_neg ha, if_neg (Ne.symm h)]
      · have hk2 : containsD rest k = true := by
          simpa [containsD, lookup, if_neg ha] using hk
        have hk2' : containsD rest k' = true := by
          simpa [containsD, lookup, if_neg ha'] using hk'
        simp [setD, if_neg ha, if_neg ha', ih hk2 hk2']

theorem setD_eq_self (d : List (α × β)) (k : α) (v : β)
    (h : lookup d k = some v) : setD d k v = d := by
  induction d with
  | nil => simp [lookup] at h
  | cons p rest ih =>
    obtain ⟨a, b⟩ := p
    by_cases ha : a = k
    · subst ha
      simp [lookup] at h
      simp [setD, h]
    · simp only [lookup, if_neg ha] at h
      simp [setD, if_neg ha, ih h]

theorem mem_setD (d : List (α × β)) (k : α) (v : β) (p : α × β)
    (h : p ∈ setD d k v) : p = (k, v) ∨ p ∈ d := by
  induction d with
  | nil => simp [setD] at h; simp [h]
  | cons q rest ih =>
    obtain ⟨a, b⟩ := q
    by_cases ha : a = k
    · subst ha
      simp [setD] at h
      rcases h with h | h
      · exact Or.inl (by simp [h])
      · exact Or.inr (by simp [h])
    · simp only [setD, if_neg ha, List.mem_cons] at h
      rcases h with h | h
      · exact Or.inr (by simp [h])
      · rcases ih h with h' | h'
        · exact Or.inl h'
        · exact Or.inr (by simp [h'])

theorem mem_delD (d : List (α × β)) (k : α) (p : α × β)
    (h : p ∈ delD d k) : p ∈ d := by
  induction d with
  | nil => simp [delD] at h
  | cons q rest ih =>
    obtain ⟨a, b⟩ := q
    by_cases ha : a = k
    · subst ha
      simp only [delD, if_pos rfl] at h
      exact List.mem_cons_of_mem _ h
    · simp only [delD, if_neg ha, List.mem_cons] at h
      rcases h with h | h
      · exact h ▸ List.mem_cons_self _ _
      · exact List.mem_cons_of_mem _ (ih h)

theorem lookup_delD_ne (d : List (α × β)) (k a : α) (h : a ≠ k) :
    lookup (delD d k) a = lookup d a := by
  induction d with
  | nil => simp [delD]
  | cons q rest ih =>
    obtain ⟨b, v⟩ := q
    by_cases hb : b = k
    · subst hb
      have hba : ¬ b = a := fun hh => h hh.symm
      simp [delD, if_pos rfl, lookup, if_neg hba]
    · simp only [delD, if_neg hb, lookup]
      by_cases hb' : b = a
      · simp [hb']
      · simp [if_neg hb', ih]

theorem containsD_mapVal (d : List (α × β)) (f : α × β → β) (a : α) :
    containsD (d.map (fun p => (p.1, f p))) a = containsD d a := by
  induction d with
  | nil => simp
  | cons q rest ih =>
    by_cases h : q.1 = a
    · simp [containsD, lookup, h]
    · simp only [containsD, lookup, List.map_cons, if_neg h] at ih ⊢
      exact ih

theorem edgesOf_append (d d' : List (String × List Edge)) :
    edgesOf (d ++ d') = edgesOf d ++ edgesOf d' := by
  simp [edgesOf]

theorem mem_of_lookup (d : List (α × β)) (k : α) (v : β)
    (h : lookup d k = some v) : (k, v) ∈ d := by
  induction d with
  | nil => simp [lookup] at h
  | cons q rest ih =>
    obtain ⟨a, b⟩ := q
    by_cases ha : a = k
    · subst ha
      simp [lookup] at h
      simp [h]
    · simp only [lookup, if_neg ha] at h
      exact List.mem_cons_of_mem _ (ih h)

theorem containsD_setD_mono (d : List (α × β)) (k a : α) (v : β)
    (h : containsD d a = true) : containsD (setD d k v) a = true := by
  rw [containsD_setD, h, Bool.or_true]

end DictLemmas

/-! ### Referential integrity lemmas -/

theorem edgeClosedL_setD_append (d : List (String × List Edge)) (k : String)
    (new : List Edge) (hd : edgeClosedL d) (hk : containsD d k = true)
    (hnew : ∀ e ∈ new, containsD d e.to_station = true) :
    edgeClosedL (setD d k ((lookup d k).getD [] ++ new)) := by
  intro p hp e he
  rcases mem_setD _ _ _ _ hp with hpk | hpd
  · subst hpk
    simp only at he
    rcases List.mem_append.mp he with hold | hnw
    · obtain ⟨es, hes⟩ := Option.isSome_iff_exists.mp hk
      rw [hes] at hold
      exact containsD_setD_mono _ _ _ _ (hd (k, es) (mem_of_lookup _ _ _ hes) e hold)
    · exact containsD_setD_mono _ _ _ _ (hnew e hnw)
  · exact containsD_setD_mono _ _ _ _ (hd p hpd e he)

theorem edgeClosedL_setD_filter (d : List (String × List Edge)) (k : String)
    (p : Edge → Bool) (hd : edgeClosedL d) :
    edgeClosedL (setD d k (((lookup d k).getD []).filter p)) := by
  intro q hq e he
  rcases mem_setD _ _ _ _ hq with hqk | hqd
  · subst hqk
    simp only at he
    have he' := List.mem_of_mem_filter he
    match hl : lookup d k with
    | none => rw [hl] at he'; simp at he'
    | some es =>
      rw [hl] at he'
      exact containsD_setD_mono _ _ _ _ (hd (k, es) (mem_of_lookup _ _ _ hl) e he')
  · exact containsD_setD_mono _ _ _ _ (hd q hqd e he)

theorem edgeClosed_add_station (g : TransportGraph) (s : String) (tw : Option ℚ)
    (hg : edgeClosed g) : edgeClosed (TransportGraph.add_station g s tw) := by
  unfold edgeClosed edgeClosedL at hg ⊢
  simp only [TransportGraph.add_station]
  by_cases h : containsD g.adj s
  · simpa [h] using hg
  · simp only [h, if_false]
    intro p hp e he
    rcases mem_setD _ _ _ _ hp with hpk | hpd
    · subst hpk; simp at he
    · exact containsD_setD_mono _ _ _ _ (hg p hpd e he)

theorem containsD_add_station_self (g : TransportGraph) (s : String) (tw : Option ℚ) :
    containsD (TransportGraph.add_station g s tw).adj s = true := by
  simp only [TransportGraph.add_station]
  by_cases h : containsD g.adj s
  · simp [h]
  · simp only [h, if_false]
    simp [containsD_setD]

theorem containsD_add_station_mono (g : TransportGraph) (s x : String) (tw : Option ℚ)
    (h : containsD g.adj x = true) :
    containsD (TransportGraph.add_station g s tw).adj x = true := by
  simp only [TransportGraph.add_station]
  by_cases hc : containsD g.adj s
  · simpa [hc]
  · simp only [hc, if_false]
    exact containsD_setD_mono _ _ _ _ h

/-! ### Round-trip lemmas for add/remove connection -/

theorem setD_absent {α β : Type} [DecidableEq α] (d : List (α × β)) (k : α) (v : β)
    (h : containsD d k = false) : setD d k v = d ++ [(k, v)] := by
  induction d with
  | nil => simp [setD]
  | cons p rest ih =>
    obtain ⟨a, b⟩ := p
    by_cases ha : a = k
    · subst ha
      simp [containsD, lookup] at h
    · simp only [containsD, lookup, if_neg ha] at h
      simp [setD, if_neg ha, ih h]

theorem removeMatch_self (b : String) (l : Option String) (t : ℚ) :
    TransportGraph.removeMatch b l (Edge.mk b t l) = false := by
  cases l <;> simp [TransportGraph.removeMatch]

theorem filter_of_all {p : Edge → Bool} {es : List Edge}
    (h : ∀ e ∈ es, p e = true) : es.filter p = es :=
  List.filter_eq_self.mpr h

theorem adj_add_station_contains (g : TransportGraph) (s : String) (tw : Option ℚ)
    (h : containsD g.adj s = true) :
    (TransportGraph.add_station g s tw).adj = g.adj := by
  simp [TransportGraph.add_station, h]

theorem adj_add_station_absent (g : TransportGraph) (s : String) (tw : Option ℚ)
    (h : containsD g.adj s = false) :
    (TransportGraph.add_station g s tw).adj = g.adj ++ [(s, [])] := by
  simp [TransportGraph.add_station, h, setD_absent]

theorem lookup_append {α β : Type} [DecidableEq α] (d d' : List (α × β)) (x : α) :
    lookup (d ++ d') x =
      (match lookup d x with | some v => some v | none => lookup d' x) := by
  induction d with
  | nil => simp [lookup]
  | cons p rest ih =>
    obtain ⟨k, v⟩ := p
    by_cases hk : k = x
    · simp [lookup, hk]
    · simp [lookup, hk, ih]

/-- The adjacency mapping after `add_connection` then `remove_connection`
(both bidirectional, same endpoints and line), when both endpoints already
exist and no pre-existing edge of either endpoint matches the removal
filter, is exactly the original adjacency mapping. -/
theorem roundtrip_adj_of_contains (g : TransportGraph) (a b : String)
    (t : ℚ) (l : Option String)
    (hca : containsD g.adj a = true) (hcb : containsD g.adj b = true)
    (ha : ∀ e ∈ (lookup g.adj a).getD [], TransportGraph.removeMatch b l e = true)
    (hb : ∀ e ∈ (lookup g.adj b).getD [], TransportGraph.removeMatch a l e = true) :
    (TransportGraph.remove_connection
      (TransportGraph.add_connection g a b t l true) a b l true).adj = g.adj := by
  obtain ⟨la, hla⟩ := Option.isSome_iff_exists.mp hca
  obtain ⟨lb, hlb⟩ := Option.isSome_iff_exists.mp hcb
  rw [hla] at ha
  rw [hlb] at hb
  simp only [Option.getD_some] at ha hb
  by_cases hab : a = b
  · subst hab
    have hlab : la = lb := by rw [hla] at hlb; exact Option.some_injective _ hlb
    subst hlab
    have hga : (TransportGraph.add_connection g a a t l true).adj =
        setD g.adj a (la ++ [Edge.mk a t l, Edge.mk a t l]) := by
      simp [TransportGraph.add_connection, hca, hla, lookup_setD, setD_setD_same]
    have hc3 : containsD (setD g.adj a (la ++ [Edge.mk a t l, Edge.mk a t l])) a = true :=
      containsD_setD_mono _ _ _ _ hca
    have hl3 : lookup (setD g.adj a (la ++ [Edge.mk a t l, Edge.mk a t l])) a =
        some (la ++ [Edge.mk a t l, Edge.mk a t l]) := by
      rw [lookup_setD, if_pos rfl]
    have hfilter : ((la ++ [Edge.mk a t l, Edge.mk a t l]).filter
        (TransportGraph.removeMatch a l)) = la := by
      rw [List.filter_append, filter_of_all ha]
      simp [removeMatch_self]
    simp [TransportGraph.remove_connection, hga, hc3, hl3, hfilter, setD_setD_same,
      setD_eq_self _ _ _ hla, hca, hla, filter_of_all ha]
  · have hga : (TransportGraph.add_connection g a b t l true).adj =
        setD (setD g.adj a (la ++ [Edge.mk b t l])) b (lb ++ [Edge.mk a t l]) := by
      simp [TransportGraph.add_connection, hca, hcb, hla, hlb, lookup_setD, hab]
    have hc2a : containsD (setD g.adj a (la ++ [Edge.mk b t l])) a = true :=
      containsD_setD_mono _ _ _ _ hca
    have hc2b : containsD (setD g.adj a (la ++ [Edge.mk b t l])) b = true :=
      containsD_setD_mono _ _ _ _ hcb
    have hc3a : containsD (setD (setD g.adj a (la ++ [Edge.mk b t l])) b
        (lb ++ [Edge.mk a t l])) a = true :=
      containsD_setD_mono _ _ _ _ hc2a
    have hl3a : lookup (setD (setD g.adj a (la ++ [Edge.mk b t l])) b
        (lb ++ [Edge.mk a t l])) a = some (la ++ [Edge.mk b t l]) := by
      rw [lookup_setD, if_neg (Ne.symm hab), lookup_setD, if_pos rfl]
    have hfa : ((la ++ [Edge.mk b t l]).filter (TransportGraph.removeMatch b l)) = la := by
      rw [List.filter_append, filter_of_all ha]
      simp [removeMatch_self]
    have hstep : setD (setD (setD g.adj a (la ++ [Edge.mk b t l])) b
        (lb ++ [Edge.mk a t l])) a la = setD g.adj b (lb ++ [Edge.mk a t l]) := by
      rw [setD_comm _ _ _ _ _ (Ne.symm hab) hc2b hc2a, setD_setD_same,
        setD_eq_self _ _ _ hla]
    have hc1b : containsD (setD g.adj b (lb ++ [Edge.mk a t l])) b = true :=
      containsD_setD_mono _ _ _ _ hcb
    have hl1b : lookup (setD g.adj b (lb ++ [Edge.mk a t l])) b =
        some (lb ++ [Edge.mk a t l]) := by
      rw [lookup_setD, if_pos rfl]
    have hfb : ((lb ++ [Edge.mk a t l]).filter (TransportGraph.removeMatch a l)) = lb := by
      rw [List.filter_append, filter_of_all hb]
      simp [removeMatch_self]
    simp [TransportGraph.remove_connection, hga, hc3a, hl3a, hfa, hstep, hc1b, hl1b,
      hfb, setD_setD_same, setD_eq_self _ _ _ hlb]

theorem getD_lookup_append_nil (d : List (String × List Edge)) (s x : String) :
    (lookup (d ++ [(s, [])]) x).getD ([] : List Edge) = (lookup d x).getD [] := by
  rw [lookup_append]
  cases hl : lookup d x
  · simp only [lookup]
    split <;> simp
  · simp

/-- Claim C6, amended: adding connection `(a, b, t, line)` bidirectionally
and then removing it bidirectionally with the same line restores the prior
edge set exactly, provided no pre-existing edge out of `a` or out of `b`
matches the removal filter (same destination and, when a line is given,
the same line; an absent line matches every line).  Without that proviso
the removal also deletes matching pre-existing parallel edges, as the
counterexample shows.  Auto-created endpoint stations remain, but carry no
edges. -/
theorem claim_C6_amended_round_trip (g : TransportGraph) (a b : String)
    (t : ℚ) (l : Option String)
    (ha : ∀ e ∈ TransportGraph.routes_from g a, TransportGraph.removeMatch b l e = true)
    (hb : ∀ e ∈ TransportGraph.routes_from g b, TransportGraph.removeMatch a l e = true) :
    edgeList (TransportGraph.remove_connection
      (TransportGraph.add_connection g a b t l true) a b l true) = edgeList g := by
  set g1 := if ¬ containsD g.adj a then TransportGraph.add_station g a none else g with hg1
  set g2 := if ¬ containsD g1.adj b then TransportGraph.add_station g1 b none else g1 with hg2
  have hg1a : containsD g1.adj a = true := by
    rw [hg1]; split
    · exact containsD_add_station_self g a none
    · rename_i h; simp at h; exact h
  have hg2a : containsD g2.adj a = true := by
    rw [hg2]; split
    · exact containsD_add_station_mono g1 b a none hg1a
    · exact hg1a
  have hg2b : containsD g2.adj b = true := by
    rw [hg2]; split
    · exact containsD_add_station_self g1 b none
    · rename_i h; simp at h; exact h
  have h1edges : edgesOf g1.adj = edgesOf g.adj := by
    rw [hg1]; split
    · rename_i h; simp at h
      rw [adj_add_station_absent g a none h, edgesOf_append]
      simp [edgesOf]
    · rfl
  have h2edges : edgesOf g2.adj = edgesOf g.adj := by
    rw [hg2]; split
    · rename_i h; simp at h
      rw [adj_add_station_absent g1 b none h, edgesOf_append,
        show edgesOf [(b, ([] : List Edge))] = [] from by simp [edgesOf],
        List.append_nil]
      exact h1edges
    · exact h1edges
  have hl1a : (lookup g1.adj a).getD [] = (lookup g.adj a).getD [] := by
    rw [hg1]; split
    · rename_i h; simp at h
      rw [adj_add_station_absent g a none h, getD_lookup_append_nil]
    · rfl
  have hl1b : (lookup g1.adj b).getD [] = (lookup g.adj b).getD [] := by
    rw [hg1]; split
    · rename_i h; simp at h
      rw [adj_add_station_absent g a none h, getD_lookup_append_nil]
    · rfl
  have hl2a : (lookup g2.adj a).getD [] = (lookup g.adj a).getD [] := by
    rw [hg2]; split
    · rename_i h; simp at h
      rw [adj_add_station_absent g1 b none h, getD_lookup_append_nil]
      exact hl1a
    · exact hl1a
  have hl2b : (lookup g2.adj b).getD [] = (lookup g.adj b).getD [] := by
    rw [hg2]; split
    · rename_i h; simp at h
      rw [adj_add_station_absent g1 b none h, getD_lookup_append_nil]
      exact hl1b
    · exact hl1b
  have ha2 : ∀ e ∈ (lookup g2.adj a).getD [], TransportGraph.removeMatch b l e = true := by
    rw [hl2a]; exact ha
  have hb2 : ∀ e ∈ (lookup g2.adj b).getD [], TransportGraph.removeMatch a l e = true := by
    rw [hl2b]; exact hb
  have hadd : TransportGraph.add_connection g a b t l true =
      TransportGraph.add_connection g2 a b t l true := by
    simp only [TransportGraph.add_connection]
    rw [← hg1, ← hg2]
    simp [hg2a, hg2b]
  have hrt := roundtrip_adj_of_contains g2 a b t l hg2a hg2b ha2 hb2
  unfold edgeList
  rw [hadd, hrt, h2edges]

/-- Witness for the amended C6: round trip on the concrete pre-existing
graph with the edge A→B (7, line "1"), using a fresh line "3" so no prior
edge matches the removal filter. -/
theorem claim_C6_amended_round_trip_witness :
    (∀ e ∈ TransportGraph.routes_from Gpre "A",
      TransportGraph.removeMatch "B" (some "3") e = true) ∧
    (∀ e ∈ TransportGraph.routes_from Gpre "B",
      TransportGraph.removeMatch "A" (some "3") e = true) ∧
    edgeList (TransportGraph.remove_connection
      (TransportGraph.add_connection Gpre "A" "B" 9 (some "3") true)
      "A" "B" (some "3") true) = edgeList Gpre :=
  ⟨by with_unfolding_all decide, by with_unfolding_all decide,
    claim_C6_amended_round_trip Gpre "A" "B" 9 (some "3")
      (by with_unfolding_all decide) (by with_unfolding_all decide)⟩

/-- Claim C3, amended: in `fastest_route_with_transfers`' relaxation rule,
a transfer-wait penalty (namely the departing station's override, else the
network default) together with a transfer-count increment occurs exactly
when the current line and the edge's line are both present and differ;
an unlabeled edge never adds a penalty — also when leaving a labeled
line — and an absent current line (start of journey, or the walking state
after an unlabeled edge) never adds a penalty, also onto a labeled edge. -/
theorem claim_C3_amended_penalty_rule (g : TransportGraph) (cur : String)
    (cl el : Option String) (t : ℕ) :
    (cl = none ∨ el = none ∨ cl = el → transferStep g cur cl el t = (0, t)) ∧
    (∀ a b, cl = some a → el = some b → a ≠ b →
      transferStep g cur cl el t =
        ((lookup g.transfer_waits cur).getD g.default_transfer_wait, t + 1)) := by
  constructor
  · intro h
    rcases h with h | h | h
    · simp [transferStep, h]
    · cases cl <;> simp [transferStep, h]
    · cases cl with
      | none => simp [transferStep]
      | some a => cases el with
        | none => simp [transferStep]
        | some b =>
          have hab : a = b := by simpa using h
          simp [transferStep, hab]
  · intro a b ha hb hab
    subst ha; subst hb
    simp [transferStep, hab]

/-- Witness for the amended C3 at concrete inputs: switching from line "1"
to line "2" at station B of the concrete scenario graph costs the default
wait 4 and one transfer; leaving line "1" over an unlabeled edge costs
nothing. -/
theorem claim_C3_amended_penalty_rule_witness :
    transferStep GABC "B" (some "1") (some "2") 0 = (4, 1) ∧
    transferStep GABC "B" (some "1") none 0 = (0, 0) := by
  constructor
  · have h := (claim_C3_amended_penalty_rule GABC "B" (some "1") (some "2") 0).2
      "1" "2" rfl rfl (by decide)
    exact h.trans (by with_unfolding_all decide)
  · exact (claim_C3_amended_penalty_rule GABC "B" (some "1") none 0).1
      (Or.inr (Or.inl rfl))

/-- Claim C9: the referential-integrity invariant — every station that is
the destination of a stored edge is a key of the adjacency mapping — holds
for a freshly initialized store and is preserved by `add_station`,
`remove_station`, `add_connection` and `remove_connection`, for all
arguments. -/
theorem claim_C9_referential_integrity (w : ℚ) :
    edgeClosed (TransportGraph.init w) ∧
    (∀ g s tw, edgeClosed g → edgeClosed (TransportGraph.add_station g s tw)) ∧
    (∀ g s, edgeClosed g → edgeClosed (TransportGraph.remove_station g s)) ∧
    (∀ g a b t l bi, edgeClosed g →
      edgeClosed (TransportGraph.add_connection g a b t l bi)) ∧
    (∀ g a b l bi, edgeClosed g →
      edgeClosed (TransportGraph.remove_connection g a b l bi)) := by
  refine ⟨?_, ?_, ?_, ?_, ?_⟩
  · intro p hp
    simp [TransportGraph.init] at hp
  · exact fun g s tw hg => edgeClosed_add_station g s tw hg
  · intro g s hg
    unfold edgeClosed at hg ⊢
    by_cases h : containsD g.adj s
    · have hadj : (TransportGraph.remove_station g s).adj =
          (delD g.adj s).map
            (fun p => (p.1, p.2.filter (fun e => e.to_station ≠ s))) := by
        simp [TransportGraph.remove_station, h]
      rw [hadj]
      intro p hp e he
      obtain ⟨q, hq, hqeq⟩ := List.mem_map.mp hp
      have hqd : q ∈ g.adj := mem_delD _ _ _ hq
      subst hqeq
      simp only at he
      have he2 := List.mem_of_mem_filter he
      have hne : e.to_station ≠ s := by
        have := List.of_mem_filter he
        simpa using this
      rw [containsD_mapVal]
      have hdel : containsD (delD g.adj s) e.to_station =
          containsD g.adj e.to_station := by
        unfold containsD
        rw [lookup_delD_ne _ _ _ hne]
      rw [hdel]
      exact hg q hqd e he2
    · have hid : TransportGraph.remove_station g s = g := by
        simp [TransportGraph.remove_station, h]
      rw [hid]
      exact hg
  · intro g a b t l bi hg
    unfold edgeClosed edgeClosedL at hg ⊢
    simp only [TransportGraph.add_connection]
    set g1 := if ¬ containsD g.adj a then TransportGraph.add_station g a none else g with hg1
    have hg1c : edgeClosedL g1.adj := by
      rw [hg1]; split
      · exact edgeClosed_add_station g a none hg
      · exact hg
    have hg1a : containsD g1.adj a = true := by
      rw [hg1]; split
      · exact containsD_add_station_self g a none
      · simp_all
    set g2 := if ¬ containsD g1.adj b then TransportGraph.add_station g1 b none else g1 with hg2
    have hg2c : edgeClosedL g2.adj := by
      rw [hg2]; split
      · exact edgeClosed_add_station g1 b none hg1c
      · exact hg1c
    have hg2a : containsD g2.adj a = true := by
      rw [hg2]; split
      · exact containsD_add_station_mono g1 b a none hg1a
      · exact hg1a
    have hg2b : containsD g2.adj b = true := by
      rw [hg2]; split
      · exact containsD_add_station_self g1 b none
      · simp_all
    have hstep1 : edgeClosedL (setD g2.adj a
        ((lookup g2.adj a).getD [] ++ [Edge.mk b t l])) := by
      refine edgeClosedL_setD_append _ _ _ hg2c hg2a ?_
      intro e hee
      simp at hee
      rw [hee]
      exact hg2b
    have hstep1a : containsD (setD g2.adj a
        ((lookup g2.adj a).getD [] ++ [Edge.mk b t l])) a = true :=
      containsD_setD_mono _ _ _ _ hg2a
    split
    · refine edgeClosedL_setD_append _ _ _ hstep1 ?_ ?_
      · exact containsD_setD_mono _ _ _ _ hg2b
      · intro e hee
        simp at hee
        rw [hee]
        exact hstep1a
    · exact hstep1
  · intro g a b l bi hg
    unfold edgeClosed edgeClosedL at hg ⊢
    simp only [TransportGraph.remove_connection]
    set d1 := if containsD g.adj a then
        setD g.adj a (((lookup g.adj a).getD []).filter
          (TransportGraph.removeMatch b l))
      else g.adj with hd1
    have hd1c : edgeClosedL d1 := by
      rw [hd1]; split
      · exact edgeClosedL_setD_filter _ _ _ hg
      · exact hg
    split
    · exact edgeClosedL_setD_filter _ _ _ hd1c
    · exact hd1c

/-- Witness for C9: the invariant transports across a concrete mutation
chain — here adding an edge from "C" to a fresh station "X" on the concrete
scenario graph, whose store satisfies the invariant. -/
theorem claim_C9_referential_integrity_witness :
    edgeClosed GABC ∧
    edgeClosed (TransportGraph.add_connection GABC "C" "X" 2 none true) :=
  ⟨by with_unfolding_all decide,
    (claim_C9_referential_integrity 4).2.2.2.1 GABC "C" "X" 2 none true
      (by with_unfolding_all decide)⟩

/-- Claim C10: for every graph and every existing station `s`, both
`shortest_path(s, s)` and `fastest_route_with_transfers(s, s)` (with any
transfer cap) return time 0 with the single-entry path `[(s, none)]`: the
trivial route to oneself is a success value with a non-empty path.  One
unit of fuel suffices: the seed entry is popped and is already final. -/
theorem claim_C10_trivial_self_route (g : TransportGraph) (s : String)
    (h : containsD g.adj s = true) (cap : Option ℕ) (n : ℕ) :
    shortest_path g s s (n + 1) =
      some (Except.ok (((0 : ℚ) : WithTop ℚ), [(s, none)])) ∧
    fastest_route_with_transfers g s s cap (n + 1) =
      some (Except.ok (((0 : ℚ) : WithTop ℚ), [(s, none)])) := by
  obtain ⟨v, hv⟩ := Option.isSome_iff_exists.mp h
  constructor
  · simp [shortest_path, containsD, hv, spLoop, popMin, spFinish, lookup, setD, spWalk]
  · simp [fastest_route_with_transfers, containsD, hv, frLoop, popMin, lookup, eps,
      frWalk, FREntry.key]

/-- Witness for C10 at the concrete scenario graph and station "A". -/
theorem claim_C10_trivial_self_route_witness :
    containsD GABC.adj "A" = true ∧
    (shortest_path GABC "A" "A" 1 =
      some (Except.ok (((0 : ℚ) : WithTop ℚ), [("A", none)])) ∧
    fastest_route_with_transfers GABC "A" "A" none 1 =
      some (Except.ok (((0 : ℚ) : WithTop ℚ), [("A", none)]))) :=
  ⟨by decide, claim_C10_trivial_self_route GABC "A" (by decide) none 0⟩

/-! ### Frontier-pop and loop-step lemmas -/

theorem popMin_none_iff {α : Type} (tm : α → ℚ) (pq : List α) :
    popMin tm pq = none ↔ pq = [] := by
  cases pq with
  | nil => simp [popMin]
  | cons e rest =>
    simp only [popMin]
    cases popMin tm rest
    · simp
    · rename_i p
      obtain ⟨m, rest'⟩ := p
      by_cases h : tm m < tm e <;> simp [h]

theorem popMin_spec {α : Type} (tm : α → ℚ) (pq : List α) (e : α) (pq' : List α)
    (h : popMin tm pq = some (e, pq')) :
    (∃ l1 l2, pq = l1 ++ e :: l2 ∧ pq' = l1 ++ l2) ∧ ∀ x ∈ pq, tm e ≤ tm x := by
  induction pq generalizing e pq' with
  | nil => simp [popMin] at h
  | cons a rest ih =>
    simp only [popMin] at h
    cases hrest : popMin tm rest with
    | none =>
      rw [hrest] at h
      have hnil : rest = [] := (popMin_none_iff tm rest).mp hrest
      simp at h
      obtain ⟨he, hpq⟩ := h
      subst he; subst hpq
      refine ⟨⟨[], rest, by simp, by simp⟩, ?_⟩
      intro x hx
      rcases List.mem_cons.mp hx with hx | hx
      · rw [hx]
      · rw [hnil] at hx; simp at hx
    | some p =>
      obtain ⟨m, rest'⟩ := p
      rw [hrest] at h
      obtain ⟨⟨l1, l2, hsplit, hrest'⟩, hmin⟩ := ih m rest' hrest
      by_cases hlt : tm m < tm a
      · obtain ⟨he, hpq⟩ : m = e ∧ a :: rest' = pq' := by simpa [hlt] using h
        subst he; subst hpq
        refine ⟨⟨a :: l1, l2, by simp [hsplit], by simp [hrest']⟩, ?_⟩
        intro x hx
        rcases List.mem_cons.mp hx with hx | hx
        · rw [hx]; exact le_of_lt hlt
        · exact hmin x hx
      · obtain ⟨he, hpq⟩ : a = e ∧ rest = pq' := by simpa [hlt] using h
        subst he; subst hpq
        refine ⟨⟨[], rest, by simp, by simp⟩, ?_⟩
        intro x hx
        rcases List.mem_cons.mp hx with hx | hx
        · rw [hx]
        · exact le_trans (le_of_not_lt hlt) (hmin x hx)

theorem popMin_mem {α : Type} (tm : α → ℚ) (pq : List α) (e : α) (pq' : List α)
    (h : popMin tm pq = some (e, pq')) : e ∈ pq := by
  obtain ⟨⟨l1, l2, hsplit, _⟩, _⟩ := popMin_spec tm pq e pq' h
  rw [hsplit]
  simp

theorem popMin_subset {α : Type} (tm : α → ℚ) (pq : List α) (e : α) (pq' : List α)
    (h : popMin tm pq = some (e, pq')) : ∀ x ∈ pq', x ∈ pq := by
  obtain ⟨⟨l1, l2, hsplit, hpq'⟩, _⟩ := popMin_spec tm pq e pq' h
  intro x hx
  rw [hsplit]
  rw [hpq'] at hx
  rcases List.mem_append.mp hx with hx | hx
  · exact List.mem_append.mpr (Or.inl hx)
  · exact List.mem_append.mpr (Or.inr (List.mem_cons_of_mem _ hx))

theorem popMin_mem_of_ne {α : Type} (tm : α → ℚ) (pq : List α) (e : α) (pq' : List α)
    (h : popMin tm pq = some (e, pq')) (x : α) (hx : x ∈ pq) (hne : x ≠ e) :
    x ∈ pq' := by
  obtain ⟨⟨l1, l2, hsplit, hpq'⟩, _⟩ := popMin_spec tm pq e pq' h
  rw [hsplit] at hx
  rw [hpq']
  rcases List.mem_append.mp hx with hx | hx
  · exact List.mem_append.mpr (Or.inl hx)
  · rcases List.mem_cons.mp hx with hx | hx
    · exact absurd hx hne
    · exact List.mem_append.mpr (Or.inr hx)

theorem frLoop_succ_process (g : TransportGraph) (src dst : String)
    (cap : Option ℕ) (n : ℕ) (pq : List FREntry) (best : List (FRKey × ℚ))
    (parent : List (FRKey × (FRKey × Option String))) (e : FREntry)
    (pq' : List FREntry) (tb : ℚ)
    (hpop : popMin (·.time) pq = some (e, pq'))
    (hlook : lookup best e.key = some tb)
    (hstale : ¬ tb < e.time - eps)
    (hdst : e.station ≠ dst) :
    frLoop g src dst cap (n + 1) pq best parent =
      frLoop g src dst cap n
        (frRelax g cap e (g.routes_from e.station) (pq', best, parent)).1
        (frRelax g cap e (g.routes_from e.station) (pq', best, parent)).2.1
        (frRelax g cap e (g.routes_from e.station) (pq', best, parent)).2.2 := by
  conv_lhs => rw [frLoop]
  rw [hpop]
  simp [hlook, hstale, hdst]

theorem frLoop_succ_stale (g : TransportGraph) (src dst : String)
    (cap : Option ℕ) (n : ℕ) (pq : List FREntry) (best : List (FRKey × ℚ))
    (parent : List (FRKey × (FRKey × Option String))) (e : FREntry)
    (pq' : List FREntry) (tb : ℚ)
    (hpop : popMin (·.time) pq = some (e, pq'))
    (hlook : lookup best e.key = some tb)
    (hstale : tb < e.time - eps) :
    frLoop g src dst cap (n + 1) pq best parent =
      frLoop g src dst cap n pq' best parent := by
  conv_lhs => rw [frLoop]
  rw [hpop]
  simp [hlook, hstale]

/-! ### Divergence of the uncapped transfer-aware search -/

theorem gloop_routes : TransportGraph.routes_from Gloop "A" =
    [Edge.mk "A" 0 (some "1"), Edge.mk "A" 0 (some "2")] := by
  with_unfolding_all decide

theorem gloop_wait :
    (lookup Gloop.transfer_waits "A").getD Gloop.default_transfer_wait = 0 := by
  with_unfolding_all decide

theorem eps_nonneg : ¬ (eps < (0 : ℚ)) := by
  rw [eps]; norm_num

theorem frRelax_gloop_line1 (e : FREntry) (pq' : List FREntry)
    (best : List (FRKey × ℚ)) (parent : List (FRKey × (FRKey × Option String)))
    (hst : e.station = "A") (htime : e.time = 0) (hline : e.line = some "1")
    (hkey : lookup best e.key = some 0)
    (hbest : ∀ kv ∈ best, kv.2 = 0) :
    frRelax Gloop none e (TransportGraph.routes_from Gloop "A") (pq', best, parent) =
      (match lookup best ("A", some "2", e.transfers + 1) with
       | none => (pq' ++ [FREntry.mk 0 "A" (some "2") (e.transfers + 1)],
           setD best ("A", some "2", e.transfers + 1) 0,
           setD parent ("A", some "2", e.transfers + 1) (e.key, some "2"))
       | some _ => (pq', best, parent)) := by
  have hkey' : lookup best (e.station, e.line, e.transfers) = some 0 := hkey
  rw [hst, hline] at hkey'
  cases hk2 : lookup best ("A", some "2", e.transfers + 1) with
  | none =>
    rw [gloop_routes]
    simp only [frRelax, transferStep, hst, htime, hline, gloop_wait]
    simp [FREntry.key, hst, hline, htime, hkey', hk2, eps_nonneg]
  | some b =>
    have hb0 : b = 0 := hbest _ (mem_of_lookup _ _ _ hk2)
    subst hb0
    rw [gloop_routes]
    simp only [frRelax, transferStep, hst, htime, hline, gloop_wait]
    simp [FREntry.key, hst, hline, htime, hkey', hk2, eps_nonneg]

theorem frRelax_gloop_line2 (e : FREntry) (pq' : List FREntry)
    (best : List (FRKey × ℚ)) (parent : List (FRKey × (FRKey × Option String)))
    (hst : e.station = "A") (htime : e.time = 0) (hline : e.line = some "2")
    (hkey : lookup best e.key = some 0)
    (hbest : ∀ kv ∈ best, kv.2 = 0) :
    frRelax Gloop none e (TransportGraph.routes_from Gloop "A") (pq', best, parent) =
      (match lookup best ("A", some "1", e.transfers + 1) with
       | none => (pq' ++ [FREntry.mk 0 "A" (some "1") (e.transfers + 1)],
           setD best ("A", some "1", e.transfers + 1) 0,
           setD parent ("A", some "1", e.transfers + 1) (e.key, some "1"))
       | some _ => (pq', best, parent)) := by
  have hkey' : lookup best (e.station, e.line, e.transfers) = some 0 := hkey
  rw [hst, hline] at hkey'
  have hne : (("A", some "1", e.transfers + 1) : FRKey) ≠
      ("A", some "2", e.transfers) := by
    intro hcontra
    exact absurd (congrArg (fun k => k.2.1) hcontra) (by simp)
  cases hk2 : lookup best ("A", some "1", e.transfers + 1) with
  | none =>
    rw [gloop_routes]
    simp only [frRelax, transferStep, hst, htime, hline, gloop_wait]
    simp [FREntry.key, hst, hline, htime, hkey', hk2, eps_nonneg, lookup_setD, hne]
  | some b =>
    have hb0 : b = 0 := hbest _ (mem_of_lookup _ _ _ hk2)
    subst hb0
    rw [gloop_routes]
    simp only [frRelax, transferStep, hst, htime, hline, gloop_wait]
    simp [FREntry.key, hst, hline, htime, hkey', hk2, eps_nonneg]

theorem frLoop_gloop_none (n : ℕ) :
    ∀ (pq : List FREntry) (best : List (FRKey × ℚ))
      (parent : List (FRKey × (FRKey × Option String))),
      (∀ e ∈ pq, e.station = "A" ∧ e.time = 0 ∧
        (e.line = some "1" ∨ e.line = some "2") ∧ lookup best e.key = some 0) →
      (∀ kv ∈ best, kv.2 = 0) →
      (∃ N, (∀ kv ∈ best, kv.1.2.2 ≤ N) ∧ ∃ ew ∈ pq, ew.transfers = N) →
      frLoop Gloop "A" "B" none n pq best parent = none := by
  induction n with
  | zero => intro pq best parent _ _ _; rfl
  | succ n ih =>
    intro pq best parent hall hbest hwit
    obtain ⟨N, hboundN, ew, hewmem, hewN⟩ := hwit
    have hne : pq ≠ [] := fun hh => by
      rw [hh] at hewmem; exact (List.not_mem_nil ew) hewmem
    obtain ⟨e, pq', hp⟩ : ∃ e pq', popMin (·.time) pq = some (e, pq') := by
      cases hpp : popMin (·.time) pq with
      | none => exact absurd ((popMin_none_iff _ _).mp hpp) hne
      | some ep =>
        obtain ⟨e0, pq0⟩ := ep
        exact ⟨e0, pq0, rfl⟩
    obtain ⟨hest, hetime, heline, hekey⟩ := hall e (popMin_mem _ _ _ _ hp)
    have hstale : ¬ ((0 : ℚ) < e.time - eps) := by
      rw [hetime, eps]; norm_num
    have hdst : e.station ≠ "B" := by rw [hest]; decide
    have heN : e.transfers ≤ N := by
      have hmem := mem_of_lookup best e.key 0 hekey
      simpa using hboundN (e.key, (0 : ℚ)) hmem
    have hsetkeep : ∀ (k2 k : FRKey), lookup best k = some 0 →
        lookup (setD best k2 (0 : ℚ)) k = some 0 := by
      intro k2 k hk
      rw [lookup_setD]
      split
      · rfl
      · exact hk
    rw [frLoop_succ_process Gloop "A" "B" none n pq best parent e pq' 0 hp hekey
      hstale hdst, hest]
    rcases heline with h1 | h1
    all_goals (
      first
        | rw [frRelax_gloop_line1 e pq' best parent hest hetime h1 hekey hbest]
        | rw [frRelax_gloop_line2 e pq' best parent hest hetime h1 hekey hbest])
    case _ =>
      cases hk2 : lookup best ("A", some "2", e.transfers + 1) with
      | some b =>
        simp only [hk2]
        apply ih
        · exact fun x hx => hall x (popMin_subset _ _ _ _ hp x hx)
        · exact hbest
        · refine ⟨N, hboundN, ew, ?_, hewN⟩
          have hlt : e.transfers + 1 ≤ N := by
            have hmem := mem_of_lookup best _ b hk2
            simpa using hboundN (("A", some "2", e.transfers + 1), b) hmem
          have hneq : ew ≠ e := by
            intro hcontra
            rw [hcontra] at hewN
            omega
          exact popMin_mem_of_ne _ _ _ _ hp ew hewmem hneq
      | none =>
        simp only [hk2]
        apply ih
        · intro x hx
          rcases List.mem_append.mp hx with hx | hx
          · obtain ⟨ha, hb', hc, hd⟩ := hall x (popMin_subset _ _ _ _ hp x hx)
            exact ⟨ha, hb', hc, hsetkeep _ _ hd⟩
          · simp at hx
            subst hx
            refine ⟨rfl, rfl, Or.inr rfl, ?_⟩
            have : (FREntry.mk 0 "A" (some "2") (e.transfers + 1)).key =
                ("A", some "2", e.transfers + 1) := rfl
            rw [this, lookup_setD, if_pos rfl]
        · intro kv hkv
          rcases mem_setD _ _ _ _ hkv with hkv | hkv
          · rw [hkv]
          · exact hbest kv hkv
        · by_cases heq : e.transfers = N
          · refine ⟨N + 1, ?_, FREntry.mk 0 "A" (some "2") (e.transfers + 1), ?_, ?_⟩
            · intro kv hkv
              rcases mem_setD _ _ _ _ hkv with hkv | hkv
              · rw [hkv]; simp [heq]
              · exact le_trans (hboundN kv hkv) (Nat.le_succ N)
            · simp
            · simp [heq]
          · have hlt : e.transfers < N := lt_of_le_of_ne heN heq
            refine ⟨N, ?_, ew, ?_, hewN⟩
            · intro kv hkv
              rcases mem_setD _ _ _ _ hkv with hkv | hkv
              · rw [hkv]; simpa using hlt
              · exact hboundN kv hkv
            · have hneq : ew ≠ e := by
                intro hcontra
                rw [hcontra] at hewN
                omega
              exact List.mem_append.mpr
                (Or.inl (popMin_mem_of_ne _ _ _ _ hp ew hewmem hneq))
    case _ =>
      cases hk2 : lookup best ("A", some "1", e.transfers + 1) with
      | some b =>
        simp only [hk2]
        apply ih
        · exact fun x hx => hall x (popMin_subset _ _ _ _ hp x hx)
        · exact hbest
        · refine ⟨N, hboundN, ew, ?_, hewN⟩
          have hlt : e.transfers + 1 ≤ N := by
            have hmem := mem_of_lookup best _ b hk2
            simpa using hboundN (("A", some "1", e.transfers + 1), b) hmem
          have hneq : ew ≠ e := by
            intro hcontra
            rw [hcontra] at hewN
            omega
          exact popMin_mem_of_ne _ _ _ _ hp ew hewmem hneq
      | none =>
        simp only [hk2]
        apply ih
        · intro x hx
          rcases List.mem_append.mp hx with hx | hx
          · obtain ⟨ha, hb', hc, hd⟩ := hall x (popMin_subset _ _ _ _ hp x hx)
            exact ⟨ha, hb', hc, hsetkeep _ _ hd⟩
          · simp at hx
            subst hx
            refine ⟨rfl, rfl, Or.inl rfl, ?_⟩
            have : (FREntry.mk 0 "A" (some "1") (e.transfers + 1)).key =
                ("A", some "1", e.transfers + 1) := rfl
            rw [this, lookup_setD, if_pos rfl]
        · intro kv hkv
          rcases mem_setD _ _ _ _ hkv with hkv | hkv
          · rw [hkv]
          · exact hbest kv hkv
        · by_cases heq : e.transfers = N
          · refine ⟨N + 1, ?_, FREntry.mk 0 "A" (some "1") (e.transfers + 1), ?_, ?_⟩
            · intro kv hkv
              rcases mem_setD _ _ _ _ hkv with hkv | hkv
              · rw [hkv]; simp [heq]
              · exact le_trans (hboundN kv hkv) (Nat.le_succ N)
            · simp
            · simp [heq]
          · have hlt : e.transfers < N := lt_of_le_of_ne heN heq
            refine ⟨N, ?_, ew, ?_, hewN⟩
            · intro kv hkv
              rcases mem_setD _ _ _ _ hkv with hkv | hkv
              · rw [hkv]; simpa using hlt
              · exact hboundN kv hkv
            · have hneq : ew ≠ e := by
                intro hcontra
                rw [hcontra] at hewN
                omega
              exact List.mem_append.mpr
                (Or.inl (popMin_mem_of_ne _ _ _ _ hp ew hewmem hneq))

/-- On the graph with two zero-duration self-loops at A on distinct lines
and zero transfer wait, the uncapped transfer-aware search for the
unreachable station B never returns: every popped state `(A, line, k)`
pushes a fresh state `(A, other line, k + 1)`, so the frontier never
empties and no amount of fuel completes the loop. -/
theorem frwt_gloop_none (fuel : ℕ) :
    fastest_route_with_transfers Gloop "A" "B" none fuel = none := by
  have hcontains : ¬ (¬ containsD Gloop.adj "A" = true ∨
      ¬ containsD Gloop.adj "B" = true) := by
    with_unfolding_all decide
  unfold fastest_route_with_transfers
  rw [if_neg hcontains]
  cases fuel with
  | zero => rfl
  | succ n =>
    have hpop : popMin (·.time) [FREntry.mk 0 "A" none 0] =
        some (FREntry.mk 0 "A" none 0, []) := by
      with_unfolding_all decide
    have hseedkey : lookup [((("A" : String), (none : Option String), (0 : ℕ)), (0 : ℚ))]
        (FREntry.mk 0 "A" none 0).key = some 0 := by
      with_unfolding_all decide
    have hstale : ¬ ((0 : ℚ) < (FREntry.mk 0 "A" none 0).time - eps) := by
      show ¬ ((0 : ℚ) < 0 - eps)
      rw [eps]; norm_num
    have hdst : (FREntry.mk 0 "A" none 0).station ≠ "B" := by decide
    rw [frLoop_succ_process Gloop "A" "B" none n _ _ _ _ _ 0 hpop hseedkey hstale hdst]
    have hrelax : frRelax Gloop none (FREntry.mk 0 "A" none 0)
        (Gloop.routes_from (FREntry.mk 0 "A" none 0).station)
        ([], [((("A" : String), (none : Option String), (0 : ℕ)), (0 : ℚ))], []) =
        ([FREntry.mk 0 "A" (some "1") 0, FREntry.mk 0 "A" (some "2") 0],
         [(("A", none, 0), 0), (("A", some "1", 0), 0), (("A", some "2", 0), 0)],
         [(("A", some "1", 0), (("A", none, 0), some "1")),
          (("A", some "2", 0), (("A", none, 0), some "2"))]) := by
      with_unfolding_all decide
    rw [hrelax]
    have hdone := frLoop_gloop_none n
      [FREntry.mk 0 "A" (some "1") 0, FREntry.mk 0 "A" (some "2") 0]
      [(("A", none, 0), 0), (("A", some "1", 0), 0), (("A", some "2", 0), 0)]
      [(("A", some "1", 0), (("A", none, 0), some "1")),
       (("A", some "2", 0), (("A", none, 0), some "2"))]
      (by with_unfolding_all decide)
      (by with_unfolding_all decide)
      ⟨0, by with_unfolding_all decide,
        FREntry.mk 0 "A" (some "1") 0, by simp, rfl⟩
    rw [hdone]
    rfl

/-- Claim C2, evaluation of the code at the failing input: on a graph with
non-negative (zero) durations and non-negative (zero) transfer waits and
both stations existing, `fastest_route_with_transfers("A", "B")` with no
transfer cap does not finish within any fuel bound — the loop runs
forever, contradicting the claim that every such call is a bounded
computation. -/
theorem claim_C2_unbounded_computation (fuel : ℕ) :
    fastest_route_with_transfers Gloop "A" "B" none fuel = none :=
  frwt_gloop_none fuel

/-- Claim C4, counterexample: with both endpoints existing and the
destination unreachable, the uncapped transfer-aware search on the
two-self-loop graph never returns at all — in particular it does not
return the no-path result (infinite time, empty path) that the claim
promises for every uncompletable query. -/
theorem claim_C4_counterexample : frwtDiverges Gloop "A" "B" none :=
  fun fuel => frwt_gloop_none fuel

/-! ### Shape of returned results: infinite time iff empty path -/

theorem spWalk_len (prev : List (String × (Option String × Option String))) :
    ∀ (n : ℕ) (cur : Option String) (acc res : List PathStep),
      spWalk prev n cur acc = some res → acc.length ≤ res.length := by
  intro n
  induction n with
  | zero =>
    intro cur acc res h
    cases cur with
    | none =>
      simp only [spWalk] at h
      cases h
      exact le_refl _
    | some c => simp [spWalk] at h
  | succ n ih =>
    intro cur acc res h
    cases cur with
    | none =>
      simp only [spWalk] at h
      cases h
      exact le_refl _
    | some c =>
      simp only [spWalk] at h
      cases hl : lookup prev c with
      | none => rw [hl] at h; simp at h
      | some pst =>
        rw [hl] at h
        have := ih pst.1 ((c, pst.2) :: acc) res h
        simp at this
        exact le_trans (Nat.le_succ _) this

theorem spFinish_shape (dst : String) (dist : List (String × ℚ))
    (prev : List (String × (Option String × Option String))) (r : RouteResult)
    (h : spFinish dst dist prev = some r) : r.1 = ⊤ ↔ r.2 = [] := by
  unfold spFinish at h
  by_cases hd : containsD prev dst
  · rw [if_neg (by simp [hd])] at h
    cases hw : spWalk prev (prev.length + 1) (some dst) [] with
    | none => rw [hw] at h; simp at h
    | some path =>
      rw [hw] at h
      cases hld : lookup dist dst with
      | none => rw [hld] at h; simp at h
      | some t =>
        rw [hld] at h
        cases h
        have hlen : 1 ≤ path.length := by
          obtain ⟨pst, hpst⟩ := Option.isSome_iff_exists.mp hd
          simp only [spWalk, hpst] at hw
          have := spWalk_len prev prev.length pst.1 [(dst, pst.2)] path hw
          simpa using this
        constructor
        · intro ht
          exact absurd ht (WithTop.coe_ne_top)
        · intro hp
          simp only at hp
          subst hp
          simp at hlen
  · rw [if_pos (by simp [hd])] at h
    cases h
    simp
theorem spLoop_shape (g : TransportGraph) (dst : String) :
    ∀ (n : ℕ) (pq : List SPEntry) (dist : List (String × ℚ))
      (prev : List (String × (Option String × Option String))) (r : RouteResult),
      spLoop g dst n pq dist prev = some r → (r.1 = ⊤ ↔ r.2 = []) := by
  intro n
  induction n with
  | zero => intro pq dist prev r h; simp [spLoop] at h
  | succ n ih =>
    intro pq dist prev r h
    rw [spLoop] at h
    cases hpop : popMin (·.time) pq with
    | none =>
      rw [hpop] at h
      exact spFinish_shape dst dist prev r h
    | some ep =>
      obtain ⟨e, pq'⟩ := ep
      rw [hpop] at h
      dsimp only at h
      by_cases hprev : containsD prev e.station
      · rw [if_pos hprev] at h
        exact ih pq' dist prev r h
      · rw [if_neg hprev] at h
        by_cases hdst : e.station = dst
        · rw [if_pos hdst] at h
          exact spFinish_shape dst dist _ r h
        · rw [if_neg hdst] at h
          exact ih _ _ _ r h

theorem frLoop_shape (g : TransportGraph) (src dst : String) (cap : Option ℕ) :
    ∀ (n : ℕ) (pq : List FREntry) (best : List (FRKey × ℚ))
      (parent : List (FRKey × (FRKey × Option String))) (r : RouteResult),
      frLoop g src dst cap n pq best parent = some r → (r.1 = ⊤ ↔ r.2 = []) := by
  intro n
  induction n with
  | zero => intro pq best parent r h; simp [frLoop] at h
  | succ n ih =>
    intro pq best parent r h
    rw [frLoop] at h
    cases hpop : popMin (·.time) pq with
    | none =>
      rw [hpop] at h
      dsimp only at h
      cases h
      simp
    | some ep =>
      obtain ⟨e, pq'⟩ := ep
      rw [hpop] at h
      dsimp only at h
      by_cases hstale : (match lookup best e.key with
          | none => false
          | some b => decide (b < e.time - eps)) = true
      · rw [if_pos hstale] at h
        exact ih pq' best parent r h
      · rw [if_neg hstale] at h
        by_cases hdst : e.station = dst
        · rw [if_pos hdst] at h
          cases hw : frWalk parent (parent.length + 1) e.key [] with
          | none => rw [hw] at h; simp at h
          | some p =>
            rw [hw] at h
            cases h
            constructor
            · intro ht
              exact absurd ht (WithTop.coe_ne_top)
            · intro hp
              simp at hp
        · rw [if_neg hdst] at h
          exact ih _ _ _ r h

/-- Claim C5, evaluation of the code at the failing input: on a graph with
two parallel bidirectional A-B connections of equal duration, one
unlabeled and one on line "1", and both stations present,
`fastest_route_with_transfers("A", "B")` does not return a success value:
pushing the second frontier tuple makes `heapq` compare the tied tuples
`(5.0, "B", "1", 0)` and `(5.0, "B", None, 0)`, and ordering a `str`
against `None` raises `TypeError` — a failure other than the
unknown-station error, contradicting the claim that existing endpoints can
fail in no other way. -/
theorem claim_C5_typeerror_on_tied_lines :
    fastest_route_with_transfersPy Gcrash "A" "B" none 10 =
      some (Except.error (PyErr.typeError
        "'<' not supported between instances of 'str' and 'NoneType'")) := by
  with_unfolding_all decide

/-! ### Shortest-path optimality: walk and relaxation lemmas -/

theorem walksB_nil (g : TransportGraph) (a b : String) :
    walksB g a [] b = true ↔ a = b := by
  simp [walksB]

theorem walksB_cons (g : TransportGraph) (a b : String) (e : Edge) (es : List Edge) :
    walksB g a (e :: es) b = true ↔
      e ∈ (lookup g.adj a).getD [] ∧ walksB g e.to_station es b = true := by
  simp [walksB]

theorem pathCost_nil : pathCost [] = 0 := rfl

theorem pathCost_cons (e : Edge) (es : List Edge) :
    pathCost (e :: es) = e.time + pathCost es := by
  simp [pathCost]

theorem edge_nonneg_of_mem (g : TransportGraph) (hnn : nonnegDurations g)
    (a : String) (e : Edge) (he : e ∈ (lookup g.adj a).getD []) : 0 ≤ e.time := by
  cases hl : lookup g.adj a with
  | none => rw [hl] at he; simp at he
  | some es =>
    rw [hl] at he
    exact hnn (a, es) (mem_of_lookup _ _ _ hl) e he

theorem pathCost_nonneg (g : TransportGraph) (hnn : nonnegDurations g) :
    ∀ (es : List Edge) (a b : String), walksB g a es b = true → 0 ≤ pathCost es := by
  intro es
  induction es with
  | nil => intro a b _; rw [pathCost_nil]
  | cons e rest ih =>
    intro a b h
    obtain ⟨hmem, hrest⟩ := (walksB_cons g a b e rest).mp h
    rw [pathCost_cons]
    have h1 := edge_nonneg_of_mem g hnn a e hmem
    have h2 := ih e.to_station b hrest
    linarith

theorem spRelax_cons (cur : String) (t : ℚ) (ed : Edge) (es : List Edge)
    (pq : List SPEntry) (dist : List (String × ℚ)) :
    spRelax cur t (ed :: es) (pq, dist) =
      if (match lookup dist ed.to_station with
          | none => true
          | some d => decide (t + ed.time < d)) = true then
        spRelax cur t es
          (pq ++ [SPEntry.mk (t + ed.time) ed.to_station (some cur) ed.line],
            setD dist ed.to_station (t + ed.time))
      else spRelax cur t es (pq, dist) := rfl

theorem spRelax_dist_mono (cur : String) (t : ℚ) :
    ∀ (es : List Edge) (pq : List SPEntry) (dist : List (String × ℚ))
      (w : String) (d0 : ℚ), lookup dist w = some d0 →
      ∃ d2, lookup (spRelax cur t es (pq, dist)).2 w = some d2 ∧ d2 ≤ d0 := by
  intro es
  induction es with
  | nil => intro pq dist w d0 h; exact ⟨d0, h, le_refl _⟩
  | cons ed rest ih =>
    intro pq dist w d0 h
    rw [spRelax_cons]
    by_cases hk : (match lookup dist ed.to_station with
        | none => true
        | some d => decide (t + ed.time < d)) = true
    · rw [if_pos hk]
      by_cases hw : ed.to_station = w
      · subst hw
        rw [h] at hk
        simp at hk
        obtain ⟨d2, hd2, hle⟩ := ih _ (setD dist ed.to_station (t + ed.time))
          ed.to_station (t + ed.time) (by rw [lookup_setD, if_pos rfl])
        exact ⟨d2, hd2, le_trans hle (le_of_lt hk)⟩
      · obtain ⟨d2, hd2, hle⟩ := ih _ (setD dist ed.to_station (t + ed.time)) w d0
          (by rw [lookup_setD, if_neg hw]; exact h)
        exact ⟨d2, hd2, hle⟩
    · rw [if_neg hk]
      exact ih _ _ w d0 h

theorem spRelax_pq_grow (cur : String) (t : ℚ) :
    ∀ (es : List Edge) (pq : List SPEntry) (dist : List (String × ℚ))
      (x : SPEntry), x ∈ pq → x ∈ (spRelax cur t es (pq, dist)).1 := by
  intro es
  induction es with
  | nil => intro pq dist x hx; exact hx
  | cons ed rest ih =>
    intro pq dist x hx
    rw [spRelax_cons]
    by_cases hk : (match lookup dist ed.to_station with
        | none => true
        | some d => decide (t + ed.time < d)) = true
    · rw [if_pos hk]
      exact ih _ _ x (List.mem_append.mpr (Or.inl hx))
    · rw [if_neg hk]
      exact ih _ _ x hx

theorem spRelax_min (cur : String) (t : ℚ) :
    ∀ (es : List Edge) (pq : List SPEntry) (dist : List (String × ℚ)),
      (∀ ed ∈ es, 0 ≤ ed.time) → (∀ x ∈ pq, t ≤ x.time) →
      ∀ x ∈ (spRelax cur t es (pq, dist)).1, t ≤ x.time := by
  intro es
  induction es with
  | nil => intro pq dist _ hpq x hx; exact hpq x hx
  | cons ed rest ih =>
    intro pq dist hes hpq x hx
    rw [spRelax_cons] at hx
    by_cases hk : (match lookup dist ed.to_station with
        | none => true
        | some d => decide (t + ed.time < d)) = true
    · rw [if_pos hk] at hx
      refine ih _ _ (fun e he => hes e (List.mem_cons_of_mem _ he)) ?_ x hx
      intro y hy
      rcases List.mem_append.mp hy with hy | hy
      · exact hpq y hy
      · simp at hy
        subst hy
        have := hes ed (List.mem_cons_self _ _)
        simp
        linarith
    · rw [if_neg hk] at hx
      exact ih _ _ (fun e he => hes e (List.mem_cons_of_mem _ he)) hpq x hx

theorem spRelax_good (cur : String) (t : ℚ) :
    ∀ (es : List Edge) (pq : List SPEntry) (dist : List (String × ℚ)),
      (∀ x ∈ pq, ∃ d, lookup dist x.station = some d ∧ d ≤ x.time) →
      ∀ x ∈ (spRelax cur t es (pq, dist)).1,
        ∃ d, lookup (spRelax cur t es (pq, dist)).2 x.station = some d ∧ d ≤ x.time := by
  intro es
  induction es with
  | nil => intro pq dist hpq x hx; exact hpq x hx
  | cons ed rest ih =>
    intro pq dist hpq x hx
    rw [spRelax_cons] at hx ⊢
    by_cases hk : (match lookup dist ed.to_station with
        | none => true
        | some d => decide (t + ed.time < d)) = true
    · rw [if_pos hk] at hx ⊢
      refine ih _ _ ?_ x hx
      intro y hy
      rcases List.mem_append.mp hy with hy | hy
      · obtain ⟨d, hd, hle⟩ := hpq y hy
        by_cases hws : ed.to_station = y.station
        · refine ⟨t + ed.time, by rw [lookup_setD, if_pos hws], ?_⟩
          rw [hws] at hk
          rw [hd] at hk
          simp at hk
          exact le_trans (le_of_lt hk) hle
        · exact ⟨d, by rw [lookup_setD, if_neg hws]; exact hd, hle⟩
      · simp at hy
        subst hy
        exact ⟨t + ed.time, by simp [lookup_setD], le_refl _⟩
    · rw [if_neg hk] at hx ⊢
      exact ih _ _ hpq x hx

theorem spRelax_pqdist (cur : String) (t : ℚ) (cond : String → Prop) :
    ∀ (es : List Edge) (pq : List SPEntry) (dist : List (String × ℚ)),
      (∀ w d, cond w → lookup dist w = some d →
        ∃ x ∈ pq, x.station = w ∧ x.time ≤ d) →
      ∀ w d, cond w → lookup (spRelax cur t es (pq, dist)).2 w = some d →
        ∃ x ∈ (spRelax cur t es (pq, dist)).1, x.station = w ∧ x.time ≤ d := by
  intro es
  induction es with
  | nil => intro pq dist hP w d hc hl; exact hP w d hc hl
  | cons ed rest ih =>
    intro pq dist hP w d hc hl
    rw [spRelax_cons] at hl ⊢
    by_cases hk : (match lookup dist ed.to_station with
        | none => true
        | some d => decide (t + ed.time < d)) = true
    · rw [if_pos hk] at hl ⊢
      refine ih _ _ ?_ w d hc hl
      intro w' d' hc' hl'
      by_cases hws : ed.to_station = w'
      · subst hws
        rw [lookup_setD, if_pos rfl] at hl'
        cases hl'
        exact ⟨SPEntry.mk (t + ed.time) ed.to_station (some cur) ed.line,
          List.mem_append.mpr (Or.inr (by simp)), rfl, le_refl _⟩
      · rw [lookup_setD, if_neg hws] at hl'
        obtain ⟨x, hx, hxs, hxt⟩ := hP w' d' hc' hl'
        exact ⟨x, List.mem_append.mpr (Or.inl hx), hxs, hxt⟩
    · rw [if_neg hk] at hl ⊢
      exact ih _ _ hP w d hc hl

theorem spRelax_fin_edges (cur : String) (t : ℚ) :
    ∀ (es : List Edge) (pq : List SPEntry) (dist : List (String × ℚ)),
      ∀ ed ∈ es, ∃ dx, lookup (spRelax cur t es (pq, dist)).2 ed.to_station = some dx ∧
        dx ≤ t + ed.time := by
  intro es
  induction es with
  | nil => intro pq dist ed hed; simp at hed
  | cons ed0 rest ih =>
    intro pq dist ed hed
    rw [spRelax_cons]
    rcases List.mem_cons.mp hed with hed | hed
    · subst hed
      by_cases hk : (match lookup dist ed.to_station with
          | none => true
          | some d => decide (t + ed.time < d)) = true
      · rw [if_pos hk]
        obtain ⟨d2, hd2, hle⟩ := spRelax_dist_mono cur t rest _
          (setD dist ed.to_station (t + ed.time)) ed.to_station (t + ed.time)
          (by rw [lookup_setD, if_pos rfl])
        exact ⟨d2, hd2, hle⟩
      · rw [if_neg hk]
        cases hl : lookup dist ed.to_station with
        | none => rw [hl] at hk; simp at hk
        | some d =>
          rw [hl] at hk
          simp at hk
          obtain ⟨d2, hd2, hle⟩ := spRelax_dist_mono cur t rest pq dist
            ed.to_station d hl
          exact ⟨d2, hd2, le_trans hle hk⟩
    · by_cases hk : (match lookup dist ed0.to_station with
          | none => true
          | some d => decide (t + ed0.time < d)) = true
      · rw [if_pos hk]
        exact ih _ _ ed hed
      · rw [if_neg hk]
        exact ih _ _ ed hed

theorem containsD_setD_false {α β : Type} [DecidableEq α]
    {d : List (α × β)} {k w : α} {v : β}
    (h : containsD (setD d k v) w = false) :
    containsD d w = false ∧ k ≠ w := by
  rw [containsD_setD] at h
  rcases Bool.or_eq_false_iff.mp h with ⟨h1, h2⟩
  exact ⟨h2, by simpa using h1⟩

/-- The "jump over finalized stations" step of the optimality argument:
every finalized station relaxed its edges at a pop time below the current
bound, so a walk to the destination whose head lies on a finalized station
can be shortened to one starting at an unfinalized station without
increasing the combined bound. -/
theorem spChain (g : TransportGraph) (dst : String) (hnn : nonnegDurations g)
    (dist : List (String × ℚ))
    (prev : List (String × (Option String × Option String))) (lb : ℚ)
    (hfin : ∀ w, containsD prev w = true → ∃ fw, fw ≤ lb ∧
      ∀ e ∈ (lookup g.adj w).getD [], ∃ dx, lookup dist e.to_station = some dx ∧
        dx ≤ fw + e.time)
    (hdst : containsD prev dst = false) :
    ∀ (es : List Edge) (w : String) (b : ℚ), walksB g w es dst = true → lb ≤ b →
      (∃ d, lookup dist w = some d ∧ d ≤ b) →
      ∃ w' es' b', walksB g w' es' dst = true ∧ containsD prev w' = false ∧
        (∃ d, lookup dist w' = some d ∧ d ≤ b') ∧ lb ≤ b' ∧
        b' + pathCost es' ≤ b + pathCost es := by
  intro es
  induction es with
  | nil =>
    intro w b hwalk hlb hd
    have hw : w = dst := (walksB_nil g w dst).mp hwalk
    subst hw
    exact ⟨w, [], b, hwalk, hdst, hd, hlb, le_refl _⟩
  | cons ed rest ih =>
    intro w b hwalk hlb hd
    by_cases hw : containsD prev w = true
    · obtain ⟨hmem, hrest⟩ := (walksB_cons g w dst ed rest).mp hwalk
      obtain ⟨fw, hfwlb, hedges⟩ := hfin w hw
      obtain ⟨dx, hdx, hdxle⟩ := hedges ed hmem
      have hnn_ed : 0 ≤ ed.time := edge_nonneg_of_mem g hnn w ed hmem
      obtain ⟨w', es', b', h1, h2, h3, h4, h5⟩ :=
        ih ed.to_station (b + ed.time) hrest (by linarith)
          ⟨dx, hdx, by linarith⟩
      refine ⟨w', es', b', h1, h2, h3, h4, ?_⟩
      rw [pathCost_cons]
      linarith
    · simp only [Bool.not_eq_true] at hw
      exact ⟨w, ed :: rest, b, hwalk, hw, hd, hlb, le_refl _⟩

/-- Main invariant induction for the optimality of `shortest_path`: if the
loop returns, its reported time is at most the cost of any directed walk
from a not-yet-finalized station (with a suitable bound) to the
destination.  The invariants are: `lb` bounds frontier times from below;
every frontier entry has a `dist` estimate at most its time; every
unfinalized station with a `dist` estimate has a frontier entry at most
that estimate; every finalized station relaxed all its edges at a pop time
at most `lb`; the destination is not finalized; and a walk witness with
cost bound `c` exists. -/
theorem spLoop_le_path (g : TransportGraph) (dst : String) (c : ℚ)
    (hnn : nonnegDurations g) :
    ∀ (n : ℕ) (pq : List SPEntry) (dist : List (String × ℚ))
      (prev : List (String × (Option String × Option String))) (lb : ℚ)
      (t : WithTop ℚ) (p : List PathStep),
      (∀ x ∈ pq, lb ≤ x.time) →
      (∀ x ∈ pq, ∃ d, lookup dist x.station = some d ∧ d ≤ x.time) →
      (∀ w d, containsD prev w = false → lookup dist w = some d →
        ∃ x ∈ pq, x.station = w ∧ x.time ≤ d) →
      (∀ w, containsD prev w = true → ∃ fw, fw ≤ lb ∧
        ∀ e ∈ (lookup g.adj w).getD [], ∃ dx, lookup dist e.to_station = some dx ∧
          dx ≤ fw + e.time) →
      containsD prev dst = false →
      (∃ w es b, walksB g w es dst = true ∧ containsD prev w = false ∧
        (∃ d, lookup dist w = some d ∧ d ≤ b) ∧ lb ≤ b ∧ b + pathCost es ≤ c) →
      spLoop g dst n pq dist prev = some (t, p) → t ≤ (c : WithTop ℚ) := by
  intro n
  induction n with
  | zero =>
    intro pq dist prev lb t p _ _ _ _ _ _ h
    simp [spLoop] at h
  | succ n ih =>
    intro pq dist prev lb t p hminpq hgood hpqd hfin hdfree hwit h
    obtain ⟨w, es, b, hwalk, hwunf, ⟨dw, hdw, hdwb⟩, hlbb, hbc⟩ := hwit
    obtain ⟨ew, hewmem, hews, hewt⟩ := hpqd w dw hwunf hdw
    rw [spLoop] at h
    cases hpop : popMin (·.time) pq with
    | none =>
      exfalso
      rw [(popMin_none_iff _ _).mp hpop] at hewmem
      exact (List.not_mem_nil ew) hewmem
    | some ep =>
      obtain ⟨e, pq'⟩ := ep
      rw [hpop] at h
      dsimp only at h
      have hmin_e : ∀ x ∈ pq, e.time ≤ x.time := (popMin_spec _ pq e pq' hpop).2
      have het_le_b : e.time ≤ b :=
        le_trans (hmin_e ew hewmem) (le_trans hewt hdwb)
      by_cases hprev : containsD prev e.station = true
      · rw [if_pos hprev] at h
        refine ih pq' dist prev lb t p
          (fun x hx => hminpq x (popMin_subset _ _ _ _ hpop x hx))
          (fun x hx => hgood x (popMin_subset _ _ _ _ hpop x hx))
          ?_ hfin hdfree
          ⟨w, es, b, hwalk, hwunf, ⟨dw, hdw, hdwb⟩, hlbb, hbc⟩ h
        intro w' d' hunf' hld'
        obtain ⟨x, hxmem, hxs, hxt⟩ := hpqd w' d' hunf' hld'
        have hxe : x ≠ e := by
          intro hcontra
          rw [hcontra] at hxs
          rw [hxs] at hprev
          rw [hprev] at hunf'
          simp at hunf'
        exact ⟨x, popMin_mem_of_ne _ _ _ _ hpop x hxmem hxe, hxs, hxt⟩
      · rw [if_neg hprev] at h
        by_cases hdst2 : e.station = dst
        · rw [if_pos hdst2] at h
          obtain ⟨de, hde, hdee⟩ := hgood e (popMin_mem _ _ _ _ hpop)
          rw [hdst2] at hde
          have hcp : containsD (setD prev e.station (e.prev_station, e.line))
              dst = true := by
            rw [containsD_setD]
            simp [hdst2]
          unfold spFinish at h
          rw [if_neg (by simp [hcp])] at h
          cases hwres : spWalk (setD prev e.station (e.prev_station, e.line))
              ((setD prev e.station (e.prev_station, e.line)).length + 1)
              (some dst) [] with
          | none => rw [hwres] at h; simp at h
          | some path =>
            rw [hwres, hde] at h
            have ht : t = ((de : ℚ) : WithTop ℚ) := by
              cases h
              rfl
            rw [ht]
            have hcost : 0 ≤ pathCost es := pathCost_nonneg g hnn es w dst hwalk
            have hfinal : de ≤ c := by linarith
            exact_mod_cast hfinal
        · rw [if_neg hdst2] at h
          have hedges_nn : ∀ ed ∈ g.routes_from e.station, 0 ≤ ed.time :=
            fun ed hed => edge_nonneg_of_mem g hnn e.station ed hed
          have hpq'min : ∀ x ∈ pq', e.time ≤ x.time :=
            fun x hx => hmin_e x (popMin_subset _ _ _ _ hpop x hx)
          have hlb_et : lb ≤ e.time := hminpq e (popMin_mem _ _ _ _ hpop)
          have hdfree' : containsD (setD prev e.station (e.prev_station, e.line))
              dst = false := by
            rw [containsD_setD]
            simp [hdst2, hdfree]
          have hfin' : ∀ w', containsD (setD prev e.station (e.prev_station, e.line))
              w' = true → ∃ fw, fw ≤ e.time ∧
              ∀ ed ∈ (lookup g.adj w').getD [],
                ∃ dx, lookup (spRelax e.station e.time (g.routes_from e.station)
                  (pq', dist)).2 ed.to_station = some dx ∧ dx ≤ fw + ed.time := by
            intro w' hw'
            rw [containsD_setD] at hw'
            rcases Bool.or_eq_true_iff.mp hw' with hcase | hcase
            · have hwe : e.station = w' := by simpa using hcase
              subst hwe
              exact ⟨e.time, le_refl _,
                fun ed hed => spRelax_fin_edges e.station e.time _ pq' dist ed hed⟩
            · obtain ⟨fw, hfwlb, hedges⟩ := hfin w' hcase
              refine ⟨fw, le_trans hfwlb hlb_et, ?_⟩
              intro ed hed
              obtain ⟨dx, hdx, hdxle⟩ := hedges ed hed
              obtain ⟨dx2, hdx2, hdx2le⟩ := spRelax_dist_mono e.station e.time
                (g.routes_from e.station) pq' dist ed.to_station dx hdx
              exact ⟨dx2, hdx2, le_trans hdx2le hdxle⟩
          refine ih _ _ _ e.time t p
            (spRelax_min e.station e.time _ pq' dist hedges_nn hpq'min)
            (spRelax_good e.station e.time _ pq' dist
              (fun x hx => hgood x (popMin_subset _ _ _ _ hpop x hx)))
            ?_ hfin' hdfree' ?_ h
          · refine spRelax_pqdist e.station e.time
              (fun w' => containsD (setD prev e.station (e.prev_station, e.line))
                w' = false) _ pq' dist ?_
            intro w' d' hunf' hld'
            obtain ⟨hunfold, hne⟩ := containsD_setD_false hunf'
            obtain ⟨x, hxmem, hxs, hxt⟩ := hpqd w' d' hunfold hld'
            have hxe : x ≠ e := by
              intro hcontra
              rw [hcontra] at hxs
              exact hne hxs
            exact ⟨x, popMin_mem_of_ne _ _ _ _ hpop x hxmem hxe, hxs, hxt⟩
          · by_cases hwe : w = e.station
            · subst hwe
              obtain ⟨d2, hd2, hd2le⟩ := spRelax_dist_mono e.station e.time
                (g.routes_from e.station) pq' dist e.station dw hdw
              obtain ⟨w', es', b', hc1, hc2, hc3, hc4, hc5⟩ :=
                spChain g dst hnn _ _ e.time hfin' hdfree' es e.station b hwalk
                  het_le_b ⟨d2, hd2, le_trans hd2le hdwb⟩
              exact ⟨w', es', b', hc1, hc2, hc3, hc4, by linarith⟩
            · obtain ⟨d2, hd2, hd2le⟩ := spRelax_dist_mono e.station e.time
                (g.routes_from e.station) pq' dist w dw hdw
              have hwunf' : containsD (setD prev e.station (e.prev_station, e.line))
                  w = false := by
                rw [containsD_setD]
                simp [hwunf]
                intro hcontra
                exact absurd hcontra (fun hh => hwe hh.symm)
              exact ⟨w, es, b, hwalk, hwunf', ⟨d2, hd2, le_trans hd2le hdwb⟩,
                het_le_b, hbc⟩

/-- Claim C8: for every graph with non-negative edge durations, whenever
`shortest_path(a, b)` returns a success value, its reported time is at
most the summed duration of any directed path from `a` to `b` drawn from
the stored adjacency lists (optimality of the returned time). -/
theorem claim_C8_shortest_path_optimality (g : TransportGraph)
    (src dst : String) (fuel : ℕ) (es : List Edge) (t : WithTop ℚ)
    (p : List PathStep)
    (hnn : nonnegDurations g)
    (hwalk : walksB g src es dst = true)
    (hrun : shortest_path g src dst fuel = some (Except.ok (t, p))) :
    t ≤ (pathCost es : WithTop ℚ) := by
  unfold shortest_path at hrun
  by_cases hc : ¬ containsD g.adj src = true ∨ ¬ containsD g.adj dst = true
  · rw [if_pos hc] at hrun
    simp at hrun
  · rw [if_neg hc] at hrun
    cases hl : spLoop g dst fuel [SPEntry.mk 0 src none none] [(src, 0)] [] with
    | none => rw [hl] at hrun; simp at hrun
    | some x =>
      rw [hl] at hrun
      simp at hrun
      refine spLoop_le_path g dst (pathCost es) hnn fuel
        [SPEntry.mk 0 src none none] [(src, 0)] [] 0 t p ?_ ?_ ?_ ?_ ?_ ?_ ?_
      · intro x hx
        simp at hx
        subst hx
        exact le_refl _
      · intro x hx
        simp at hx
        subst hx
        exact ⟨0, by simp [lookup], le_refl _⟩
      · intro w d _ hld
        simp only [lookup] at hld
        by_cases hws : src = w
        · rw [if_pos hws] at hld
          cases hld
          exact ⟨SPEntry.mk 0 src none none, by simp, hws, le_refl _⟩
        · rw [if_neg hws] at hld
          simp [lookup] at hld
      · intro w hw
        simp [containsD, lookup] at hw
      · simp [containsD, lookup]
      · exact ⟨src, es, 0, hwalk, by simp [containsD, lookup],
          ⟨0, by simp [lookup], le_refl _⟩, le_refl _, by simp⟩
      · rw [hl]
        rw [hrun]

/-- Witness for C8 at the concrete scenario: the walk A → B → C along
lines "1" then "2" costs 10, and `shortest_path(A, C)` reports 10 ≤ 10. -/
theorem claim_C8_shortest_path_optimality_witness :
    (((10 : ℚ) : WithTop ℚ) ≤
      (pathCost [Edge.mk "B" 5 (some "1"), Edge.mk "C" 5 (some "2")] : WithTop ℚ)) :=
  claim_C8_shortest_path_optimality GABC "A" "C" 100
    [Edge.mk "B" 5 (some "1"), Edge.mk "C" 5 (some "2")]
    ((10 : ℚ) : WithTop ℚ) [("A", none), ("B", some "1"), ("C", some "2")]
    (by with_unfolding_all decide)
    (by with_unfolding_all decide)
    (by with_unfolding_all decide)

/-! ### Transfer-cap monotonicity: simulation infrastructure -/

theorem popMin_decomp_strict {α : Type} (tm : α → ℚ) (pq : List α) (e : α)
    (pq' : List α) (h : popMin tm pq = some (e, pq')) :
    ∃ l1 l2, pq = l1 ++ e :: l2 ∧ pq' = l1 ++ l2 ∧
      (∀ x ∈ l1, tm e < tm x) ∧ (∀ x ∈ l2, tm e ≤ tm x) := by
  induction pq generalizing e pq' with
  | nil => simp [popMin] at h
  | cons a rest ih =>
    simp only [popMin] at h
    cases hrest : popMin tm rest with
    | none =>
      rw [hrest] at h
      have hnil : rest = [] := (popMin_none_iff tm rest).mp hrest
      simp at h
      obtain ⟨he, hpq⟩ := h
      subst he; subst hpq
      refine ⟨[], rest, by simp, by simp, by simp, ?_⟩
      intro x hx
      rw [hnil] at hx
      simp at hx
    | some p =>
      obtain ⟨m, rest'⟩ := p
      rw [hrest] at h
      obtain ⟨l1, l2, hsplit, hrest', hstrict, hle⟩ := ih m rest' hrest
      have hminrest : ∀ x ∈ rest, tm m ≤ tm x := (popMin_spec tm rest m rest' hrest).2
      by_cases hlt : tm m < tm a
      · obtain ⟨he, hpq⟩ : m = e ∧ a :: rest' = pq' := by simpa [hlt] using h
        subst he; subst hpq
        refine ⟨a :: l1, l2, by simp [hsplit], by simp [hrest'], ?_, hle⟩
        intro x hx
        rcases List.mem_cons.mp hx with hx | hx
        · rw [hx]; exact hlt
        · exact hstrict x hx
      · obtain ⟨he, hpq⟩ : a = e ∧ rest = pq' := by simpa [hlt] using h
        subst he; subst hpq
        refine ⟨[], rest, by simp, by simp, by simp, ?_⟩
        intro x hx
        exact le_trans (le_of_not_lt hlt) (hminrest x hx)

theorem popMin_of_decomp {α : Type} (tm : α → ℚ) (l1 l2 : List α) (e : α)
    (h1 : ∀ x ∈ l1, tm e < tm x) (h2 : ∀ x ∈ l2, tm e ≤ tm x) :
    popMin tm (l1 ++ e :: l2) = some (e, l1 ++ l2) := by
  induction l1 with
  | nil =>
    simp only [List.nil_append, popMin]
    cases hrest : popMin tm l2 with
    | none => simp
    | some p =>
      obtain ⟨m, rest'⟩ := p
      have hm : m ∈ l2 := popMin_mem tm l2 m rest' hrest
      have : ¬ tm m < tm e := not_lt.mpr (h2 m hm)
      simp [this]
  | cons a l1' ih =>
    have ih' := ih (fun x hx => h1 x (List.mem_cons_of_mem _ hx))
    have hlt : tm e < tm a := h1 a (List.mem_cons_self _ _)
    simp only [List.cons_append, popMin, List.append_eq]
    rw [ih']
    simp [hlt]

theorem transferStep_fst_nonneg (g : TransportGraph) (hnw : nonnegWaits g)
    (cur : String) (cl el : Option String) (tr : ℕ) :
    0 ≤ (transferStep g cur cl el tr).1 := by
  cases cl with
  | none => simp [transferStep]
  | some c =>
    cases el with
    | none => simp [transferStep]
    | some e =>
      simp only [transferStep]
      by_cases hce : c ≠ e
      · rw [if_pos hce]
        simp only
        cases hl : lookup g.transfer_waits cur with
        | none => simpa [hl] using hnw.2
        | some w =>
          have := hnw.1 (cur, w) (mem_of_lookup _ _ _ hl)
          simpa [hl] using this
      · rw [if_neg hce]

theorem transferStep_snd_ge (g : TransportGraph) (cur : String)
    (cl el : Option String) (tr : ℕ) :
    tr ≤ (transferStep g cur cl el tr).2 := by
  cases cl with
  | none => simp [transferStep]
  | some c =>
    cases el with
    | none => simp [transferStep]
    | some e =>
      simp only [transferStep]
      by_cases hce : c ≠ e
      · rw [if_pos hce]; simp
      · rw [if_neg hce]

theorem frRelax_cons (g : TransportGraph) (cap : Option ℕ) (e : FREntry)
    (ed : Edge) (es : List Edge) (pq : List FREntry) (best : List (FRKey × ℚ))
    (parent : List (FRKey × (FRKey × Option String))) :
    frRelax g cap e (ed :: es) (pq, best, parent) =
      (if (match cap with
          | none => false
          | some m => decide ((transferStep g e.station e.line ed.line e.transfers).2 > m))
          = true then
        frRelax g cap e es (pq, best, parent)
      else if (match lookup best
            (ed.to_station, ed.line, (transferStep g e.station e.line ed.line e.transfers).2) with
          | none => true
          | some b => decide (e.time + (transferStep g e.station e.line ed.line e.transfers).1
              + ed.time + eps < b)) = true then
        frRelax g cap e es
          (pq ++ [FREntry.mk
              (e.time + (transferStep g e.station e.line ed.line e.transfers).1 + ed.time)
              ed.to_station ed.line (transferStep g e.station e.line ed.line e.transfers).2],
            setD best
              (ed.to_station, ed.line, (transferStep g e.station e.line ed.line e.transfers).2)
              (e.time + (transferStep g e.station e.line ed.line e.transfers).1 + ed.time),
            setD parent
              (ed.to_station, ed.line, (transferStep g e.station e.line ed.line e.transfers).2)
              (e.key, ed.line))
      else frRelax g cap e es (pq, best, parent)) := rfl

theorem frStale_congr (best best' : List (FRKey × ℚ)) (e : FREntry)
    (h : lookup best' e.key = lookup best e.key) :
    frStale best' e = frStale best e := by
  unfold frStale
  rw [h]

theorem frImproves_congr (best best' : List (FRKey × ℚ)) (nk : FRKey) (nt : ℚ)
    (h : lookup best' nk = lookup best nk) :
    frImproves best' nk nt = frImproves best nk nt := by
  unfold frImproves
  rw [h]

theorem frLoop_succ_pop (g : TransportGraph) (src dst : String) (cap : Option ℕ)
    (n : ℕ) (pq : List FREntry) (best : List (FRKey × ℚ))
    (parent : List (FRKey × (FRKey × Option String))) (e : FREntry)
    (pq' : List FREntry) (hpop : popMin (·.time) pq = some (e, pq')) :
    frLoop g src dst cap (n + 1) pq best parent =
      (if frStale best e = true then
        frLoop g src dst cap n pq' best parent
      else if e.station = dst then
        match frWalk parent (parent.length + 1) e.key [] with
        | none => none
        | some p => some ((e.time : WithTop ℚ), (src, none) :: p)
      else
        frLoop g src dst cap n
          (frRelax g cap e (g.routes_from e.station) (pq', best, parent)).1
          (frRelax g cap e (g.routes_from e.station) (pq', best, parent)).2.1
          (frRelax g cap e (g.routes_from e.station) (pq', best, parent)).2.2) := by
  conv_lhs => rw [frLoop]
  rw [hpop]
  rfl

theorem frRelax_cons_cap (g : TransportGraph) (k : ℕ) (e : FREntry)
    (ed : Edge) (es : List Edge) (pq : List FREntry) (best : List (FRKey × ℚ))
    (parent : List (FRKey × (FRKey × Option String))) :
    frRelax g (some k) e (ed :: es) (pq, best, parent) =
      (if decide ((transferStep g e.station e.line ed.line e.transfers).2 > k) = true then
        frRelax g (some k) e es (pq, best, parent)
      else if frImproves best
          (ed.to_station, ed.line, (transferStep g e.station e.line ed.line e.transfers).2)
          (e.time + (transferStep g e.station e.line ed.line e.transfers).1 + ed.time) = true then
        frRelax g (some k) e es
          (pq ++ [FREntry.mk
              (e.time + (transferStep g e.station e.line ed.line e.transfers).1 + ed.time)
              ed.to_station ed.line (transferStep g e.station e.line ed.line e.transfers).2],
            setD best
              (ed.to_station, ed.line, (transferStep g e.station e.line ed.line e.transfers).2)
              (e.time + (transferStep g e.station e.line ed.line e.transfers).1 + ed.time),
            setD parent
              (ed.to_station, ed.line, (transferStep g e.station e.line ed.line e.transfers).2)
              (e.key, ed.line))
      else frRelax g (some k) e es (pq, best, parent)) := rfl

theorem frRelax_time_lb (g : TransportGraph) (hnw : nonnegWaits g)
    (cap : Option ℕ) (e : FREntry) :
    ∀ (es : List Edge) (pq : List FREntry) (best : List (FRKey × ℚ))
      (parent : List (FRKey × (FRKey × Option String))) (lb : ℚ),
      (∀ ed ∈ es, 0 ≤ ed.time) → (∀ x ∈ pq, lb ≤ x.time) → lb ≤ e.time →
      ∀ x ∈ (frRelax g cap e es (pq, best, parent)).1, lb ≤ x.time := by
  intro es
  induction es with
  | nil => intro pq best parent lb _ hpq _ x hx; exact hpq x hx
  | cons ed es ih =>
    intro pq best parent lb hes hpq he x hx
    rw [frRelax_cons] at hx
    split at hx
    · exact ih pq best parent lb (fun d hd => hes d (List.mem_cons_of_mem _ hd)) hpq he x hx
    · split at hx
      · refine ih _ _ _ lb (fun d hd => hes d (List.mem_cons_of_mem _ hd)) ?_ he x hx
        intro y hy
        rcases List.mem_append.mp hy with hy | hy
        · exact hpq y hy
        · have hye : y = FREntry.mk
              (e.time + (transferStep g e.station e.line ed.line e.transfers).1 + ed.time)
              ed.to_station ed.line (transferStep g e.station e.line ed.line e.transfers).2 := by
            simpa using hy
          rw [hye]
          have h1 : 0 ≤ (transferStep g e.station e.line ed.line e.transfers).1 :=
            transferStep_fst_nonneg g hnw e.station e.line ed.line e.transfers
          have h2 : 0 ≤ ed.time := hes ed (List.mem_cons_self _ _)
          show lb ≤ e.time + (transferStep g e.station e.line ed.line e.transfers).1 + ed.time
          linarith
      · exact ih pq best parent lb (fun d hd => hes d (List.mem_cons_of_mem _ hd)) hpq he x hx

theorem frLoop_lb (g : TransportGraph) (src dst : String) (cap : Option ℕ)
    (hnd : nonnegDurations g) (hnw : nonnegWaits g) :
    ∀ (n : ℕ) (pq : List FREntry) (best : List (FRKey × ℚ))
      (parent : List (FRKey × (FRKey × Option String))) (res : RouteResult) (lb : ℚ),
      (∀ x ∈ pq, lb ≤ x.time) →
      frLoop g src dst cap n pq best parent = some res →
      (lb : WithTop ℚ) ≤ res.1 := by
  intro n
  induction n with
  | zero => intro pq best parent res lb _ h; simp [frLoop] at h
  | succ n ih =>
    intro pq best parent res lb hpq h
    cases hpop : popMin (·.time) pq with
    | none =>
      rw [frLoop] at h
      rw [hpop] at h
      simp at h
      rw [← h]
      exact le_top
    | some p =>
      obtain ⟨e, pq'⟩ := p
      rw [frLoop_succ_pop g src dst cap n pq best parent e pq' hpop] at h
      have he : lb ≤ e.time := hpq e (popMin_mem _ pq e pq' hpop)
      have hsub : ∀ x ∈ pq', lb ≤ x.time :=
        fun x hx => hpq x (popMin_subset _ pq e pq' hpop x hx)
      by_cases hstale : frStale best e = true
      · rw [if_pos hstale] at h
        exact ih pq' best parent res lb hsub h
      · rw [if_neg hstale] at h
        by_cases hdst : e.station = dst
        · rw [if_pos hdst] at h
          cases hw : frWalk parent (parent.length + 1) e.key [] with
          | none => rw [hw] at h; simp at h
          | some p1 =>
            rw [hw] at h
            have hres : res = ((e.time : WithTop ℚ), (src, none) :: p1) := by
              simpa using h.symm
            rw [hres]
            exact WithTop.coe_le_coe.mpr he
        · rw [if_neg hdst] at h
          refine ih _ _ _ res lb ?_ h
          refine frRelax_time_lb g hnw cap e (g.routes_from e.station) pq' best parent lb
            ?_ hsub he
          intro d hd
          exact edge_nonneg_of_mem g hnd e.station d hd

theorem frRelax_extra (g : TransportGraph) (k : ℕ) (e : FREntry)
    (he : k < e.transfers) :
    ∀ (es : List Edge) (pq : List FREntry) (best : List (FRKey × ℚ))
      (parent : List (FRKey × (FRKey × Option String))),
      List.filter (frKeep k) (frRelax g (some (k + 1)) e es (pq, best, parent)).1 =
        List.filter (frKeep k) pq ∧
      ∀ key : FRKey, key.2.2 ≤ k →
        lookup (frRelax g (some (k + 1)) e es (pq, best, parent)).2.1 key =
          lookup best key := by
  intro es
  induction es with
  | nil => intro pq best parent; exact ⟨rfl, fun _ _ => rfl⟩
  | cons ed es ih =>
    intro pq best parent
    have hpen : k < (transferStep g e.station e.line ed.line e.transfers).2 :=
      lt_of_lt_of_le he (transferStep_snd_ge g e.station e.line ed.line e.transfers)
    rw [frRelax_cons_cap]
    by_cases hcap :
        decide ((transferStep g e.station e.line ed.line e.transfers).2 > k + 1) = true
    · rw [if_pos hcap]
      exact ih pq best parent
    · rw [if_neg hcap]
      by_cases himp : frImproves best
          (ed.to_station, ed.line, (transferStep g e.station e.line ed.line e.transfers).2)
          (e.time + (transferStep g e.station e.line ed.line e.transfers).1 + ed.time) = true
      · rw [if_pos himp]
        obtain ⟨ha, hb⟩ := ih
          (pq ++ [FREntry.mk
            (e.time + (transferStep g e.station e.line ed.line e.transfers).1 + ed.time)
            ed.to_station ed.line (transferStep g e.station e.line ed.line e.transfers).2])
          (setD best
            (ed.to_station, ed.line, (transferStep g e.station e.line ed.line e.transfers).2)
            (e.time + (transferStep g e.station e.line ed.line e.transfers).1 + ed.time))
          (setD parent
            (ed.to_station, ed.line, (transferStep g e.station e.line ed.line e.transfers).2)
            (e.key, ed.line))
        constructor
        · rw [ha, List.filter_append]
          have hkeep : frKeep k (FREntry.mk
              (e.time + (transferStep g e.station e.line ed.line e.transfers).1 + ed.time)
              ed.to_station ed.line
              (transferStep g e.station e.line ed.line e.transfers).2) = false := by
            simp only [frKeep, decide_eq_false_iff_not]
            exact not_le.mpr hpen
          simp [hkeep]
        · intro key hk
          rw [hb key hk, lookup_setD]
          have hne : (ed.to_station, ed.line,
              (transferStep g e.station e.line ed.line e.transfers).2) ≠ key := by
            intro hcon
            rw [← hcon] at hk
            exact absurd hk (not_le.mpr hpen)
          rw [if_neg hne]
      · rw [if_neg himp]
        exact ih pq best parent

theorem frRelax_sim (g : TransportGraph) (k : ℕ) (e : FREntry) :
    ∀ (es : List Edge) (pq pq' : List FREntry) (best best' : List (FRKey × ℚ))
      (parent parent' : List (FRKey × (FRKey × Option String))),
      List.filter (frKeep k) pq' = pq →
      (∀ key : FRKey, key.2.2 ≤ k → lookup best' key = lookup best key) →
      List.filter (frKeep k) (frRelax g (some (k + 1)) e es (pq', best', parent')).1 =
        (frRelax g (some k) e es (pq, best, parent)).1 ∧
      ∀ key : FRKey, key.2.2 ≤ k →
        lookup (frRelax g (some (k + 1)) e es (pq', best', parent')).2.1 key =
          lookup (frRelax g (some k) e es (pq, best, parent)).2.1 key := by
  intro es
  induction es with
  | nil => intro pq pq' best best' parent parent' hf hb; exact ⟨hf, hb⟩
  | cons ed es ih =>
    intro pq pq' best best' parent parent' hf hb
    rw [frRelax_cons_cap, frRelax_cons_cap]
    by_cases h1 : (transferStep g e.station e.line ed.line e.transfers).2 ≤ k
    · have hc1 : ¬ (decide ((transferStep g e.station e.line ed.line e.transfers).2 > k)
          = true) := by
        simp only [decide_eq_true_eq]
        exact not_lt.mpr h1
      have hc2 : ¬ (decide ((transferStep g e.station e.line ed.line e.transfers).2 > k + 1)
          = true) := by
        simp only [decide_eq_true_eq]
        omega
      rw [if_neg hc1, if_neg hc2]
      have hkey : lookup best'
          (ed.to_station, ed.line, (transferStep g e.station e.line ed.line e.transfers).2) =
          lookup best
          (ed.to_station, ed.line, (transferStep g e.station e.line ed.line e.transfers).2) :=
        hb _ h1
      rw [frImproves_congr best best' _ _ hkey]
      by_cases himp : frImproves best
          (ed.to_station, ed.line, (transferStep g e.station e.line ed.line e.transfers).2)
          (e.time + (transferStep g e.station e.line ed.line e.transfers).1 + ed.time) = true
      · rw [if_pos himp, if_pos himp]
        apply ih
        · rw [List.filter_append, hf]
          have hkeep : frKeep k (FREntry.mk
              (e.time + (transferStep g e.station e.line ed.line e.transfers).1 + ed.time)
              ed.to_station ed.line
              (transferStep g e.station e.line ed.line e.transfers).2) = true := by
            simp only [frKeep, decide_eq_true_eq]
            exact h1
          simp [hkeep]
        · intro key hk
          rw [lookup_setD, lookup_setD]
          by_cases hnk : (ed.to_station, ed.line,
              (transferStep g e.station e.line ed.line e.transfers).2) = key
          · rw [if_pos hnk, if_pos hnk]
          · rw [if_neg hnk, if_neg hnk]
            exact hb key hk
      · rw [if_neg himp, if_neg himp]
        exact ih pq pq' best best' parent parent' hf hb
    · have hc1 : decide ((transferStep g e.station e.line ed.line e.transfers).2 > k)
          = true := by
        simp only [decide_eq_true_eq]
        exact not_le.mp h1
      rw [if_pos hc1]
      by_cases hc2 : decide ((transferStep g e.station e.line ed.line e.transfers).2 > k + 1)
          = true
      · rw [if_pos hc2]
        exact ih pq pq' best best' parent parent' hf hb
      · rw [if_neg hc2]
        by_cases himp : frImproves best'
            (ed.to_station, ed.line, (transferStep g e.station e.line ed.line e.transfers).2)
            (e.time + (transferStep g e.station e.line ed.line e.transfers).1 + ed.time) = true
        · rw [if_pos himp]
          apply ih
          · rw [List.filter_append]
            have hkeep : frKeep k (FREntry.mk
                (e.time + (transferStep g e.station e.line ed.line e.transfers).1 + ed.time)
                ed.to_station ed.line
                (transferStep g e.station e.line ed.line e.transfers).2) = false := by
              simp only [frKeep, decide_eq_false_iff_not]
              exact fun hcon => h1 hcon
            simp [hkeep, hf]
          · intro key hk
            rw [lookup_setD]
            have hne : (ed.to_station, ed.line,
                (transferStep g e.station e.line ed.line e.transfers).2) ≠ key := by
              intro hcon
              rw [← hcon] at hk
              exact h1 hk
            rw [if_neg hne]
            exact hb key hk
        · rw [if_neg himp]
          exact ih pq pq' best best' parent parent' hf hb

theorem frLoop_mono_cap (g : TransportGraph) (src dst : String)
    (hnd : nonnegDurations g) (hnw : nonnegWaits g) (k : ℕ) :
    ∀ (m : ℕ), ∀ (n : ℕ) (pq pq' : List FREntry) (best best' : List (FRKey × ℚ))
      (parent parent' : List (FRKey × (FRKey × Option String))) (res res' : RouteResult),
      List.filter (frKeep k) pq' = pq →
      (∀ key : FRKey, key.2.2 ≤ k → lookup best' key = lookup best key) →
      frLoop g src dst (some k) n pq best parent = some res →
      frLoop g src dst (some (k + 1)) m pq' best' parent' = some res' →
      res'.1 ≤ res.1 := by
  intro m
  induction m with
  | zero =>
    intro n pq pq' best best' parent parent' res res' _ _ _ h'
    simp [frLoop] at h'
  | succ m ih =>
    intro n pq pq' best best' parent parent' res res' hf hb h h'
    cases hpop : popMin (·.time) pq' with
    | none =>
      have hnil : pq' = [] := (popMin_none_iff _ _).mp hpop
      rw [frLoop] at h'
      rw [hpop] at h'
      simp at h'
      have hpq : pq = [] := by rw [← hf, hnil]; rfl
      cases n with
      | zero => simp [frLoop] at h
      | succ n₀ =>
        rw [frLoop] at h
        have hpopk : popMin (fun x : FREntry => x.time) pq = none := by
          rw [hpq]; rfl
        rw [hpopk] at h
        simp at h
        rw [← h, ← h']
    | some p =>
      obtain ⟨e, rest'⟩ := p
      rw [frLoop_succ_pop g src dst (some (k + 1)) m pq' best' parent' e rest' hpop] at h'
      obtain ⟨l1, l2, hsplit, hrest', hstrict, hle⟩ :=
        popMin_decomp_strict (·.time) pq' e rest' hpop
      by_cases hp : e.transfers ≤ k
      · have hfe : frKeep k e = true := by
          simp only [frKeep, decide_eq_true_eq]; exact hp
        have hpq : pq = List.filter (frKeep k) l1 ++ e :: List.filter (frKeep k) l2 := by
          rw [← hf, hsplit]
          simp [List.filter_append, List.filter_cons, hfe]
        have hpopk : popMin (·.time) pq =
            some (e, List.filter (frKeep k) l1 ++ List.filter (frKeep k) l2) := by
          rw [hpq]
          exact popMin_of_decomp _ _ _ e
            (fun x hx => hstrict x (List.mem_filter.mp hx).1)
            (fun x hx => hle x (List.mem_filter.mp hx).1)
        cases n with
        | zero => simp [frLoop] at h
        | succ n₀ =>
          rw [frLoop_succ_pop g src dst (some k) n₀ pq best parent e _ hpopk] at h
          have hkey : lookup best' e.key = lookup best e.key := hb e.key hp
          rw [frStale_congr best best' e hkey] at h'
          by_cases hstale : frStale best e = true
          · rw [if_pos hstale] at h h'
            refine ih n₀ _ _ _ _ _ _ res res' ?_ hb h h'
            rw [hrest']
            simp [List.filter_append]
          · rw [if_neg hstale] at h h'
            by_cases hdst : e.station = dst
            · rw [if_pos hdst] at h h'
              cases hw : frWalk parent (parent.length + 1) e.key [] with
              | none => rw [hw] at h; simp at h
              | some p1 =>
                rw [hw] at h
                cases hw' : frWalk parent' (parent'.length + 1) e.key [] with
                | none => rw [hw'] at h'; simp at h'
                | some p2 =>
                  rw [hw'] at h'
                  have h1 : res = ((e.time : WithTop ℚ), (src, none) :: p1) := by
                    simpa using h.symm
                  have h2 : res' = ((e.time : WithTop ℚ), (src, none) :: p2) := by
                    simpa using h'.symm
                  rw [h1, h2]
            · rw [if_neg hdst] at h h'
              have hsim := frRelax_sim g k e (g.routes_from e.station)
                (List.filter (frKeep k) l1 ++ List.filter (frKeep k) l2) rest'
                best best' parent parent'
                (by rw [hrest']; simp [List.filter_append]) hb
              exact ih n₀ _ _ _ _ _ _ res res' hsim.1 hsim.2 h h'
      · have hfe : frKeep k e = false := by
          simp only [frKeep, decide_eq_false_iff_not]; exact hp
        have hfr : List.filter (frKeep k) rest' = pq := by
          rw [hrest', ← hf, hsplit]
          simp [List.filter_append, List.filter_cons, hfe]
        by_cases hstale : frStale best' e = true
        · rw [if_pos hstale] at h'
          exact ih n _ _ _ _ _ _ res res' hfr hb h h'
        · rw [if_neg hstale] at h'
          by_cases hdst : e.station = dst
          · rw [if_pos hdst] at h'
            cases hw' : frWalk parent' (parent'.length + 1) e.key [] with
            | none => rw [hw'] at h'; simp at h'
            | some p2 =>
              rw [hw'] at h'
              have h2 : res' = ((e.time : WithTop ℚ), (src, none) :: p2) := by
                simpa using h'.symm
              rw [h2]
              have hlb : ∀ x ∈ pq, e.time ≤ x.time := by
                intro x hx
                have hxf : x ∈ List.filter (frKeep k) pq' := by rw [hf]; exact hx
                have hx' : x ∈ pq' := List.mem_of_mem_filter hxf
                rw [hsplit] at hx'
                rcases List.mem_append.mp hx' with hx1 | hx2
                · exact le_of_lt (hstrict x hx1)
                · rcases List.mem_cons.mp hx2 with hxe | hx2
                  · rw [hxe]
                  · exact hle x hx2
              exact frLoop_lb g src dst (some k) hnd hnw n pq best parent res e.time hlb h
          · rw [if_neg hdst] at h'
            have hex := frRelax_extra g k e (not_le.mp hp) (g.routes_from e.station)
              rest' best' parent'
            refine ih n _ _ _ _ _ _ res res' ?_ ?_ h h'
            · rw [hex.1, hfr]
            · intro key hk
              rw [hex.2 key hk]
              exact hb key hk

/-- C7: for every graph with non-negative durations and transfer waits and
every pair of existing stations, whenever `fastest_route_with_transfers`
returns for both the transfer cap `k` and the cap `k + 1`, the time
returned with the higher cap is at most the time returned with the lower
cap: raising the transfer cap never worsens the optimum. -/
theorem claim_C7_transfer_cap_monotonicity (g : TransportGraph)
    (hnd : nonnegDurations g) (hnw : nonnegWaits g) (a b : String)
    (k n m : ℕ) (r r' : RouteResult)
    (h : fastest_route_with_transfers g a b (some k) n = some (Except.ok r))
    (h' : fastest_route_with_transfers g a b (some (k + 1)) m = some (Except.ok r')) :
    r'.1 ≤ r.1 := by
  rw [fastest_route_with_transfers] at h h'
  by_cases hex : ¬ containsD g.adj a = true ∨ ¬ containsD g.adj b = true
  · rw [if_pos hex] at h
    simp at h
  · rw [if_neg hex] at h
    rw [if_neg hex] at h'
    cases hfl : frLoop g a b (some k) n
        [FREntry.mk 0 a none 0] [((a, none, 0), 0)] [] with
    | none => rw [hfl] at h; simp at h
    | some res =>
      rw [hfl] at h
      simp at h
      cases hfl' : frLoop g a b (some (k + 1)) m
          [FREntry.mk 0 a none 0] [((a, none, 0), 0)] [] with
      | none => rw [hfl'] at h'; simp at h'
      | some res' =>
        rw [hfl'] at h'
        simp at h'
        rw [← h, ← h']
        refine frLoop_mono_cap g a b hnd hnw k m n
          [FREntry.mk 0 a none 0] [FREntry.mk 0 a none 0]
          [((a, none, 0), 0)] [((a, none, 0), 0)] [] [] res res' ?_ (fun _ _ => rfl)
          hfl hfl'
        simp [frKeep]

/-- Witness for C7: on the concrete A-B-C two-line graph, the query A to C
with cap 0 returns the no-path result (infinite time) and with cap 1 the
14-minute route; the theorem applied at this input yields 14 ≤ ∞. -/
theorem claim_C7_transfer_cap_monotonicity_witness :
    nonnegDurations GABC ∧ nonnegWaits GABC ∧
    fastest_route_with_transfers GABC "A" "C" (some 0) 10 =
      some (Except.ok ((⊤ : WithTop ℚ), ([] : List PathStep))) ∧
    fastest_route_with_transfers GABC "A" "C" (some 1) 10 =
      some (Except.ok (((14 : ℚ) : WithTop ℚ),
        [("A", none), ("B", some "1"), ("C", some "2")])) ∧
    (((14 : ℚ) : WithTop ℚ),
        ([("A", none), ("B", some "1"), ("C", some "2")] : List PathStep)).1 ≤
      ((⊤ : WithTop ℚ), ([] : List PathStep)).1 :=
  ⟨by with_unfolding_all decide, by with_unfolding_all decide,
    by with_unfolding_all decide, by with_unfolding_all decide,
    claim_C7_transfer_cap_monotonicity GABC
      (by with_unfolding_all decide) (by with_unfolding_all decide) "A" "C" 0 10 10
      ((⊤ : WithTop ℚ), ([] : List PathStep))
      (((14 : ℚ) : WithTop ℚ), [("A", none), ("B", some "1"), ("C", some "2")])
      (by with_unfolding_all decide) (by with_unfolding_all decide)⟩

/-- C1: in the concrete graph with stations A, B, C, bidirectional edges
A-B (duration 5, line "1") and B-C (duration 5, line "2"), and default
transfer wait 4, `shortest_path(A,C)` returns total time 10, and
`fastest_route_with_transfers(A,C)` with no transfer cap returns total time
14 with path [(A,none),(B,"1"),(C,"2")]. -/
theorem claim_C1_concrete_scenario :
    shortest_path GABC "A" "C" 10 =
      some (Except.ok (((10 : ℚ) : WithTop ℚ),
        [("A", none), ("B", some "1"), ("C", some "2")])) ∧
    fastest_route_with_transfers GABC "A" "C" none 10 =
      some (Except.ok (((14 : ℚ) : WithTop ℚ),
        [("A", none), ("B", some "1"), ("C", some "2")])) :=
  ⟨by with_unfolding_all decide, by with_unfolding_all decide⟩

/-- Counterexample to C3: on the graph A-(line "1")-B-(unlabeled)-C-(line
"2")-D with all durations 5 and default wait 4, neither leaving line "1"
over the unlabeled edge nor entering line "2" from the unlabeled state
triggers any penalty — the penalty rule computes zero wait and no transfer
increment in both situations, and the full query returns 15 (three edges,
no waits), not the 15 + 2·4 = 23 the claimed rule would produce. -/
theorem claim_C3_counterexample :
    transferStep Gmixed "B" (some "1") none 0 = (0, 0) ∧
    transferStep Gmixed "C" none (some "2") 0 = (0, 0) ∧
    fastest_route_with_transfers Gmixed "A" "D" none 20 =
      some (Except.ok (((15 : ℚ) : WithTop ℚ),
        [("A", none), ("B", some "1"), ("C", none), ("D", some "2")])) :=
  ⟨by with_unfolding_all decide, by with_unfolding_all decide,
    by with_unfolding_all decide⟩

/-- Counterexample to C6: starting from a graph with a pre-existing edge
A→B of duration 7 on line "1", adding the bidirectional connection
(A,B,5,"1") and then removing it bidirectionally with the same line does
not restore the prior edge set: the removal filter also deletes the
pre-existing parallel edge, leaving A with no outgoing edges at all. -/
theorem claim_C6_counterexample :
    lookup (TransportGraph.remove_connection
        (TransportGraph.add_connection Gpre "A" "B" 5 (some "1") true)
        "A" "B" (some "1") true).adj "A" = some [] ∧
    lookup Gpre.adj "A" = some [Edge.mk "B" 7 (some "1")] :=
  ⟨by with_unfolding_all decide, by with_unfolding_all decide⟩

/-! ### No-path guarantees: walk, universe and measure lemmas -/

theorem countP_lt_of_mem {α : Type} (l : List α) (p q : α → Bool)
    (hmono : ∀ x ∈ l, p x = true → q x = true) (x0 : α) (hx0 : x0 ∈ l)
    (hp : p x0 = false) (hq : q x0 = true) : l.countP p < l.countP q := by
  induction l with
  | nil => simp at hx0
  | cons a l ih =>
    rw [List.countP_cons, List.countP_cons]
    have hmono' : ∀ x ∈ l, p x = true → q x = true :=
      fun x hx => hmono x (List.mem_cons_of_mem _ hx)
    have hle : l.countP p ≤ l.countP q := List.countP_mono_left hmono'
    rcases List.mem_cons.mp hx0 with h0 | h0
    · subst h0
      simp [hp, hq]
      omega
    · have hlt := ih hmono' h0
      by_cases hpa : p a = true
      · have hqa := hmono a (List.mem_cons_self _ _) hpa
        simp [hpa, hqa]
        omega
      · by_cases hqa : q a = true
        · simp [hpa, hqa]
          omega
        · simp [hpa, hqa]
          omega

theorem mem_edgesOf (d : List (String × List Edge)) (s : String)
    (es : List Edge) (e : Edge) (hmem : (s, es) ∈ d) (he : e ∈ es) :
    (s, e) ∈ edgesOf d := by
  simp only [edgesOf, List.mem_flatMap]
  exact ⟨(s, es), hmem, List.mem_map.mpr ⟨e, he, rfl⟩⟩

theorem routes_mem_edgeList (g : TransportGraph) (s : String) (ed : Edge)
    (hed : ed ∈ g.routes_from s) : (s, ed) ∈ edgeList g := by
  have hr : g.routes_from s = (lookup g.adj s).getD [] := rfl
  rw [hr] at hed
  cases hl : lookup g.adj s with
  | none => rw [hl] at hed; simp at hed
  | some es =>
    rw [hl] at hed
    exact mem_edgesOf g.adj s es ed (mem_of_lookup _ _ _ hl) hed

theorem edge_mem_stationUniv (g : TransportGraph) (src s : String) (ed : Edge)
    (hed : ed ∈ g.routes_from s) : ed.to_station ∈ stationUniv g src := by
  simp only [stationUniv]
  exact List.mem_cons_of_mem _
    (List.mem_map.mpr ⟨(s, ed), routes_mem_edgeList g s ed hed, rfl⟩)

theorem edge_mem_lineUniv (g : TransportGraph) (s : String) (ed : Edge)
    (hed : ed ∈ g.routes_from s) : ed.line ∈ lineUniv g := by
  simp only [lineUniv]
  exact List.mem_cons_of_mem _
    (List.mem_map.mpr ⟨(s, ed), routes_mem_edgeList g s ed hed, rfl⟩)

theorem len_le_edgesOf (d : List (String × List Edge)) (s : String)
    (es : List Edge) (h : (s, es) ∈ d) : es.length ≤ (edgesOf d).length := by
  induction d with
  | nil => simp at h
  | cons p rest ih =>
    have hsplit : edgesOf (p :: rest) =
        p.2.map (fun e => (p.1, e)) ++ edgesOf rest := by
      simp [edgesOf]
    rw [hsplit, List.length_append, List.length_map]
    rcases List.mem_cons.mp h with h | h
    · rw [← h]
      simp
    · have := ih h
      omega

theorem routes_len_le (g : TransportGraph) (s : String) :
    (g.routes_from s).length ≤ (edgeList g).length := by
  have hr : g.routes_from s = (lookup g.adj s).getD [] := rfl
  rw [hr]
  cases hl : lookup g.adj s with
  | none => simp
  | some es =>
    have : es.length ≤ (edgesOf g.adj).length :=
      len_le_edgesOf g.adj s es (mem_of_lookup _ _ _ hl)
    simpa using this

theorem popMin_length {α : Type} (tm : α → ℚ) (pq : List α) (e : α)
    (pq' : List α) (h : popMin tm pq = some (e, pq')) :
    pq.length = pq'.length + 1 := by
  obtain ⟨⟨l1, l2, hsplit, hpq'⟩, _⟩ := popMin_spec tm pq e pq' h
  rw [hsplit, hpq']
  simp
  omega

theorem walksB_snoc (g : TransportGraph) (a b : String) (es : List Edge)
    (ed : Edge) (hw : walksB g a es b = true)
    (hed : ed ∈ (lookup g.adj b).getD []) :
    walksB g a (es ++ [ed]) ed.to_station = true := by
  induction es generalizing a with
  | nil =>
    have hab : a = b := (walksB_nil g a b).mp hw
    subst hab
    rw [List.nil_append]
    exact (walksB_cons g a ed.to_station ed []).mpr
      ⟨hed, (walksB_nil g ed.to_station ed.to_station).mpr rfl⟩
  | cons e es ih =>
    obtain ⟨hm, hrest⟩ := (walksB_cons g a b e es).mp hw
    rw [List.cons_append]
    exact (walksB_cons g a ed.to_station e (es ++ [ed])).mpr
      ⟨hm, ih e.to_station hrest⟩

theorem lineAfter_snoc (cl : Option String) (es : List Edge) (ed : Edge) :
    lineAfter cl (es ++ [ed]) = ed.line := by
  induction es generalizing cl with
  | nil => rfl
  | cons e es ih =>
    simp only [List.cons_append, lineAfter]
    exact ih e.line

theorem walkTrans_snoc (cl : Option String) (es : List Edge) (ed : Edge) :
    walkTrans cl (es ++ [ed]) =
      walkTrans cl es + transInc (lineAfter cl es) ed.line := by
  induction es generalizing cl with
  | nil => simp [walkTrans, lineAfter, Nat.add_comm]
  | cons e es ih =>
    simp only [List.cons_append, walkTrans, lineAfter, List.append_eq]
    rw [ih e.line]
    omega

theorem transferStep_snd_split (g : TransportGraph) (cur : String)
    (cl el : Option String) (tr : ℕ) :
    (transferStep g cur cl el tr).2 = tr + transInc cl el := by
  cases cl with
  | none => simp [transferStep, transInc]
  | some c =>
    cases el with
    | none => simp [transferStep, transInc]
    | some l =>
      simp only [transferStep, transInc]
      by_cases hce : c ≠ l
      · rw [if_pos hce, if_pos hce]
      · rw [if_neg hce, if_neg hce]
        simp

theorem floor_lt_floor_eps (v b : ℚ) (hv : 0 ≤ v) (h : v + eps < b) :
    ⌊v / eps⌋₊ < ⌊b / eps⌋₊ := by
  have heps : (0 : ℚ) < eps := by rw [eps]; norm_num
  have h1 : v / eps + 1 < b / eps := by
    have h2 := div_lt_div_of_pos_right h heps
    rwa [add_div, div_self (ne_of_gt heps)] at h2
  have h2 : ⌊v / eps + 1⌋₊ = ⌊v / eps⌋₊ + 1 :=
    Nat.floor_add_one (by positivity)
  have h3 : ⌊v / eps + 1⌋₊ ≤ ⌊b / eps⌋₊ := Nat.floor_mono (le_of_lt h1)
  omega

theorem bestFloors_setD (best : List (FRKey × ℚ)) (nk : FRKey) (b v : ℚ)
    (h : lookup best nk = some b) :
    bestFloors (setD best nk v) + ⌊b / eps⌋₊ = bestFloors best + ⌊v / eps⌋₊ := by
  induction best with
  | nil => simp [lookup] at h
  | cons p rest ih =>
    obtain ⟨pk, pv⟩ := p
    by_cases hk : pk = nk
    · subst hk
      simp [lookup] at h
      subst h
      simp [setD, bestFloors]
      omega
    · simp only [lookup, if_neg hk] at h
      simp only [setD, if_neg hk, bestFloors, List.map_cons, List.sum_cons]
      have hrec := ih h
      simp only [bestFloors] at hrec
      omega

theorem containsD_setD_of_contains {α β : Type} [DecidableEq α]
    (d : List (α × β)) (k : α) (v : β) (hk : containsD d k = true) (a : α) :
    containsD (setD d k v) a = containsD d a := by
  rw [containsD_setD]
  by_cases hka : k = a
  · subst hka
    simp [hk]
  · simp [hka]

theorem newKeys_mono_setD (g : TransportGraph) (src : String) (k : ℕ)
    (best : List (FRKey × ℚ)) (nk : FRKey) (v : ℚ) :
    newKeys g src k (setD best nk v) ≤ newKeys g src k best := by
  simp only [newKeys]
  apply List.countP_mono_left
  intro key _ hkey
  rw [Bool.not_eq_true'] at hkey ⊢
  cases hc : containsD best key with
  | false => rfl
  | true => simp [containsD_setD_mono best nk key v hc] at hkey

theorem newKeys_setD_new (g : TransportGraph) (src : String) (k : ℕ)
    (best : List (FRKey × ℚ)) (nk : FRKey) (v : ℚ)
    (hmem : nk ∈ keyUniv g src k) (hnew : containsD best nk = false) :
    newKeys g src k (setD best nk v) < newKeys g src k best := by
  simp only [newKeys]
  apply countP_lt_of_mem _ _ _ ?_ nk hmem ?_ ?_
  · intro key _ hkey
    rw [Bool.not_eq_true'] at hkey ⊢
    cases hc : containsD best key with
    | false => rfl
    | true => simp [containsD_setD_mono best nk key v hc] at hkey
  · simp [containsD_setD]
  · simp [hnew]

theorem newKeys_setD_old (g : TransportGraph) (src : String) (k : ℕ)
    (best : List (FRKey × ℚ)) (nk : FRKey) (v : ℚ)
    (hold : containsD best nk = true) :
    newKeys g src k (setD best nk v) = newKeys g src k best := by
  simp only [newKeys]
  apply List.countP_congr
  intro key _
  rw [containsD_setD_of_contains best nk v hold key]

theorem spLoop_succ_pop (g : TransportGraph) (dst : String) (n : ℕ)
    (pq : List SPEntry) (dist : List (String × ℚ))
    (prev : List (String × (Option String × Option String))) (e : SPEntry)
    (pq' : List SPEntry) (hpop : popMin (·.time) pq = some (e, pq')) :
    spLoop g dst (n + 1) pq dist prev =
      (if containsD prev e.station = true then spLoop g dst n pq' dist prev
      else if e.station = dst then
        spFinish dst dist (setD prev e.station (e.prev_station, e.line))
      else
        spLoop g dst n
          (spRelax e.station e.time (g.routes_from e.station) (pq', dist)).1
          (spRelax e.station e.time (g.routes_from e.station) (pq', dist)).2
          (setD prev e.station (e.prev_station, e.line))) := by
  conv_lhs => rw [spLoop]
  rw [hpop]

theorem spRelax_pq_pred (cur : String) (t : ℚ) (Q : SPEntry → Prop) :
    ∀ (es : List Edge) (pq : List SPEntry) (dist : List (String × ℚ)),
      (∀ x ∈ pq, Q x) →
      (∀ ed ∈ es, Q (SPEntry.mk (t + ed.time) ed.to_station (some cur) ed.line)) →
      ∀ x ∈ (spRelax cur t es (pq, dist)).1, Q x := by
  intro es
  induction es with
  | nil => intro pq dist hpq _ x hx; exact hpq x hx
  | cons ed es ih =>
    intro pq dist hpq hes x hx
    rw [spRelax_cons] at hx
    split at hx
    · refine ih _ _ ?_ (fun d hd => hes d (List.mem_cons_of_mem _ hd)) x hx
      intro y hy
      rcases List.mem_append.mp hy with hy | hy
      · exact hpq y hy
      · have hye : y = SPEntry.mk (t + ed.time) ed.to_station (some cur) ed.line := by
          simpa using hy
        rw [hye]
        exact hes ed (List.mem_cons_self _ _)
    · exact ih _ _ hpq (fun d hd => hes d (List.mem_cons_of_mem _ hd)) x hx

theorem spRelax_pq_len (cur : String) (t : ℚ) :
    ∀ (es : List Edge) (pq : List SPEntry) (dist : List (String × ℚ)),
      (spRelax cur t es (pq, dist)).1.length ≤ pq.length + es.length := by
  intro es
  induction es with
  | nil => intro pq dist; simp [spRelax]
  | cons ed es ih =>
    intro pq dist
    rw [spRelax_cons]
    split
    · have h := ih
        (pq ++ [SPEntry.mk (t + ed.time) ed.to_station (some cur) ed.line])
        (setD dist ed.to_station (t + ed.time))
      rw [List.length_append, List.length_singleton] at h
      rw [List.length_cons]
      omega
    · have h := ih pq dist
      rw [List.length_cons]
      omega

theorem spLoop_unreach (g : TransportGraph) (src dst : String)
    (hunreach : ∀ es, walksB g src es dst = false) :
    ∀ (n : ℕ) (pq : List SPEntry) (dist : List (String × ℚ))
      (prev : List (String × (Option String × Option String))) (res : RouteResult),
      containsD prev dst = false →
      (∀ x ∈ pq, ∃ es, walksB g src es x.station = true) →
      spLoop g dst n pq dist prev = some res →
      res = ((⊤ : WithTop ℚ), []) := by
  intro n
  induction n with
  | zero => intro pq dist prev res _ _ h; simp [spLoop] at h
  | succ n ih =>
    intro pq dist prev res hprev hpq h
    cases hpop : popMin (·.time) pq with
    | none =>
      have hnil : pq = [] := (popMin_none_iff _ _).mp hpop
      subst hnil
      rw [show spLoop g dst (n + 1) [] dist prev = spFinish dst dist prev from rfl] at h
      rw [spFinish, if_pos (by simp [hprev])] at h
      simpa using h.symm
    | some ep =>
      obtain ⟨e, pq'⟩ := ep
      rw [spLoop_succ_pop g dst n pq dist prev e pq' hpop] at h
      by_cases hfin : containsD prev e.station = true
      · rw [if_pos hfin] at h
        exact ih pq' dist prev res hprev
          (fun x hx => hpq x (popMin_subset _ pq e pq' hpop x hx)) h
      · rw [if_neg hfin] at h
        obtain ⟨es0, hes0⟩ := hpq e (popMin_mem _ pq e pq' hpop)
        have hne : ¬ (e.station = dst) := by
          intro heq
          rw [heq] at hes0
          rw [hunreach es0] at hes0
          exact Bool.false_ne_true hes0
        rw [if_neg hne] at h
        refine ih _ _ _ res ?_ ?_ h
        · rw [containsD_setD]
          simp [hprev, hne]
        · refine spRelax_pq_pred e.station e.time _ (g.routes_from e.station) pq' dist
            (fun x hx => hpq x (popMin_subset _ pq e pq' hpop x hx)) ?_
          intro ed hed
          exact ⟨es0 ++ [ed], walksB_snoc g src e.station es0 ed hes0 hed⟩

theorem spLoop_term (g : TransportGraph) (src dst : String)
    (hunreach : ∀ es, walksB g src es dst = false) :
    ∀ (N : ℕ) (pq : List SPEntry) (dist : List (String × ℚ))
      (prev : List (String × (Option String × Option String))),
      containsD prev dst = false →
      (∀ x ∈ pq, ∃ es, walksB g src es x.station = true) →
      (∀ x ∈ pq, x.station ∈ stationUniv g src) →
      spMeasure g src pq prev ≤ N →
      ∃ n, spLoop g dst n pq dist prev = some ((⊤ : WithTop ℚ), []) := by
  intro N
  induction N with
  | zero =>
    intro pq dist prev hprev _ _ hM
    rw [spMeasure] at hM
    have h0 : pq.length = 0 :=
      Nat.le_zero.mp (le_trans (Nat.le_add_left pq.length _) hM)
    have hnil : pq = [] := List.length_eq_zero.mp h0
    subst hnil
    refine ⟨1, ?_⟩
    rw [show spLoop g dst 1 [] dist prev = spFinish dst dist prev from rfl]
    rw [spFinish, if_pos (by simp [hprev])]
  | succ N ih =>
    intro pq dist prev hprev hpq huniv hM
    cases hpop : popMin (·.time) pq with
    | none =>
      have hnil : pq = [] := (popMin_none_iff _ _).mp hpop
      subst hnil
      refine ⟨1, ?_⟩
      rw [show spLoop g dst 1 [] dist prev = spFinish dst dist prev from rfl]
      rw [spFinish, if_pos (by simp [hprev])]
    | some ep =>
      obtain ⟨e, pq'⟩ := ep
      have hlen := popMin_length _ pq e pq' hpop
      by_cases hfin : containsD prev e.station = true
      · have hM' : spMeasure g src pq' prev ≤ N := by
          rw [spMeasure] at hM ⊢
          omega
        obtain ⟨n, hn⟩ := ih pq' dist prev hprev
          (fun x hx => hpq x (popMin_subset _ pq e pq' hpop x hx))
          (fun x hx => huniv x (popMin_subset _ pq e pq' hpop x hx)) hM'
        refine ⟨n + 1, ?_⟩
        rw [spLoop_succ_pop g dst n pq dist prev e pq' hpop, if_pos hfin]
        exact hn
      · obtain ⟨es0, hes0⟩ := hpq e (popMin_mem _ pq e pq' hpop)
        have hne : ¬ (e.station = dst) := by
          intro heq
          rw [heq] at hes0
          rw [hunreach es0] at hes0
          exact Bool.false_ne_true hes0
        have hfinf : containsD prev e.station = false := by
          cases hcc : containsD prev e.station with
          | false => rfl
          | true => exact absurd hcc hfin
        have hprevc :
            containsD (setD prev e.station (e.prev_station, e.line)) dst = false := by
          rw [containsD_setD]
          simp [hprev, hne]
        have hpqsub : ∀ x ∈ pq', ∃ es, walksB g src es x.station = true :=
          fun x hx => hpq x (popMin_subset _ pq e pq' hpop x hx)
        have hunivsub : ∀ x ∈ pq', x.station ∈ stationUniv g src :=
          fun x hx => huniv x (popMin_subset _ pq e pq' hpop x hx)
        have hreach' : ∀ x ∈
            (spRelax e.station e.time (g.routes_from e.station) (pq', dist)).1,
            ∃ es, walksB g src es x.station = true := by
          refine spRelax_pq_pred e.station e.time _ (g.routes_from e.station) pq' dist
            hpqsub ?_
          intro ed hed
          exact ⟨es0 ++ [ed], walksB_snoc g src e.station es0 ed hes0 hed⟩
        have huniv' : ∀ x ∈
            (spRelax e.station e.time (g.routes_from e.station) (pq', dist)).1,
            x.station ∈ stationUniv g src := by
          refine spRelax_pq_pred e.station e.time _ (g.routes_from e.station) pq' dist
            hunivsub ?_
          intro ed hed
          exact edge_mem_stationUniv g src e.station ed hed
        have hM' : spMeasure g src
            (spRelax e.station e.time (g.routes_from e.station) (pq', dist)).1
            (setD prev e.station (e.prev_station, e.line)) ≤ N := by
          have hu : unfinCount g src (setD prev e.station (e.prev_station, e.line)) <
              unfinCount g src prev := by
            simp only [unfinCount]
            refine countP_lt_of_mem _ _ _ ?_ e.station
              (huniv e (popMin_mem _ pq e pq' hpop)) ?_ ?_
            · intro x _ hx
              rw [Bool.not_eq_true'] at hx ⊢
              cases hc : containsD prev x with
              | false => rfl
              | true => simp [containsD_setD_mono prev e.station x _ hc] at hx
            · simp [containsD_setD]
            · simp [hfinf]
          have hlenR : (spRelax e.station e.time (g.routes_from e.station)
              (pq', dist)).1.length ≤ pq'.length + (edgeList g).length := by
            have h1 := spRelax_pq_len e.station e.time (g.routes_from e.station) pq' dist
            have h2 := routes_len_le g e.station
            omega
          rw [spMeasure] at hM ⊢
          have hmul : unfinCount g src (setD prev e.station (e.prev_station, e.line)) *
              ((edgeList g).length + 1) + ((edgeList g).length + 1) ≤
              unfinCount g src prev * ((edgeList g).length + 1) := by
            have h1 : unfinCount g src (setD prev e.station (e.prev_station, e.line)) + 1 ≤
                unfinCount g src prev := Nat.succ_le_of_lt hu
            calc unfinCount g src (setD prev e.station (e.prev_station, e.line)) *
                ((edgeList g).length + 1) + ((edgeList g).length + 1) =
                (unfinCount g src (setD prev e.station (e.prev_station, e.line)) + 1) *
                ((edgeList g).length + 1) := (Nat.succ_mul _ _).symm
              _ ≤ unfinCount g src prev * ((edgeList g).length + 1) :=
                Nat.mul_le_mul_right _ h1
          set A := unfinCount g src (setD prev e.station (e.prev_station, e.line)) *
            ((edgeList g).length + 1) with hA
          set B := unfinCount g src prev * ((edgeList g).length + 1) with hB
          omega
        obtain ⟨n, hn⟩ := ih
          (spRelax e.station e.time (g.routes_from e.station) (pq', dist)).1
          (spRelax e.station e.time (g.routes_from e.station) (pq', dist)).2
          (setD prev e.station (e.prev_station, e.line))
          hprevc hreach' huniv' hM'
        refine ⟨n + 1, ?_⟩
        rw [spLoop_succ_pop g dst n pq dist prev e pq' hpop, if_neg hfin, if_neg hne]
        exact hn

theorem mem_keyUniv (g : TransportGraph) (src : String) (k : ℕ)
    (s : String) (l : Option String) (t : ℕ)
    (hs : s ∈ stationUniv g src) (hl : l ∈ lineUniv g) (ht : t ≤ k) :
    (s, l, t) ∈ keyUniv g src k := by
  simp only [keyUniv, List.mem_flatMap, List.mem_map, List.mem_range]
  exact ⟨s, hs, l, hl, t, by omega, rfl⟩

theorem frRelax_pq_pred (g : TransportGraph) (k : ℕ) (e : FREntry)
    (Q : FREntry → Prop) :
    ∀ (es : List Edge) (pq : List FREntry) (best : List (FRKey × ℚ))
      (parent : List (FRKey × (FRKey × Option String))),
      (∀ x ∈ pq, Q x) →
      (∀ ed ∈ es, (transferStep g e.station e.line ed.line e.transfers).2 ≤ k →
        Q (FREntry.mk
            (e.time + (transferStep g e.station e.line ed.line e.transfers).1 + ed.time)
            ed.to_station ed.line
            (transferStep g e.station e.line ed.line e.transfers).2)) →
      ∀ x ∈ (frRelax g (some k) e es (pq, best, parent)).1, Q x := by
  intro es
  induction es with
  | nil => intro pq best parent hpq _ x hx; exact hpq x hx
  | cons ed es ih =>
    intro pq best parent hpq hes x hx
    rw [frRelax_cons_cap] at hx
    by_cases hcap :
        decide ((transferStep g e.station e.line ed.line e.transfers).2 > k) = true
    · rw [if_pos hcap] at hx
      exact ih pq best parent hpq
        (fun d hd hdk => hes d (List.mem_cons_of_mem _ hd) hdk) x hx
    · rw [if_neg hcap] at hx
      have hk : (transferStep g e.station e.line ed.line e.transfers).2 ≤ k := by
        simp only [decide_eq_true_eq] at hcap
        exact le_of_not_lt hcap
      by_cases himp : frImproves best
          (ed.to_station, ed.line, (transferStep g e.station e.line ed.line e.transfers).2)
          (e.time + (transferStep g e.station e.line ed.line e.transfers).1 + ed.time) = true
      · rw [if_pos himp] at hx
        refine ih _ _ _ ?_ (fun d hd hdk => hes d (List.mem_cons_of_mem _ hd) hdk) x hx
        intro y hy
        rcases List.mem_append.mp hy with hy | hy
        · exact hpq y hy
        · have hye : y = FREntry.mk
              (e.time + (transferStep g e.station e.line ed.line e.transfers).1 + ed.time)
              ed.to_station ed.line
              (transferStep g e.station e.line ed.line e.transfers).2 := by
            simpa using hy
          rw [hye]
          exact hes ed (List.mem_cons_self _ _) hk
      · rw [if_neg himp] at hx
        exact ih pq best parent hpq
          (fun d hd hdk => hes d (List.mem_cons_of_mem _ hd) hdk) x hx

theorem frLoop_unreach (g : TransportGraph) (src dst : String) (k : ℕ)
    (hunreach : ∀ es, walksB g src es dst = true → k < walkTrans none es) :
    ∀ (n : ℕ) (pq : List FREntry) (best : List (FRKey × ℚ))
      (parent : List (FRKey × (FRKey × Option String))) (res : RouteResult),
      (∀ x ∈ pq, frReal g src k x) →
      frLoop g src dst (some k) n pq best parent = some res →
      res = ((⊤ : WithTop ℚ), []) := by
  intro n
  induction n with
  | zero => intro pq best parent res _ h; simp [frLoop] at h
  | succ n ih =>
    intro pq best parent res hpq h
    cases hpop : popMin (·.time) pq with
    | none =>
      have hnil : pq = [] := (popMin_none_iff _ _).mp hpop
      subst hnil
      rw [show frLoop g src dst (some k) (n + 1) [] best parent =
        some ((⊤ : WithTop ℚ), []) from rfl] at h
      simpa using h.symm
    | some ep =>
      obtain ⟨e, pq'⟩ := ep
      rw [frLoop_succ_pop g src dst (some k) n pq best parent e pq' hpop] at h
      by_cases hstale : frStale best e = true
      · rw [if_pos hstale] at h
        exact ih pq' best parent res
          (fun x hx => hpq x (popMin_subset _ pq e pq' hpop x hx)) h
      · rw [if_neg hstale] at h
        obtain ⟨⟨es0, hw0, hl0, ht0⟩, htr⟩ := hpq e (popMin_mem _ pq e pq' hpop)
        have hne : ¬ (e.station = dst) := by
          intro heq
          rw [heq] at hw0
          have hgt := hunreach es0 hw0
          rw [ht0] at hgt
          omega
        rw [if_neg hne] at h
        refine ih _ _ _ res ?_ h
        refine frRelax_pq_pred g k e (frReal g src k) (g.routes_from e.station)
          pq' best parent
          (fun x hx => hpq x (popMin_subset _ pq e pq' hpop x hx)) ?_
        intro ed hed hdk
        refine ⟨⟨es0 ++ [ed], ?_, ?_, ?_⟩, hdk⟩
        · exact walksB_snoc g src e.station es0 ed hw0 hed
        · rw [lineAfter_snoc]
        · rw [walkTrans_snoc, ht0, hl0, transferStep_snd_split]

theorem frRelax_measure (g : TransportGraph) (src : String) (k : ℕ) (e : FREntry)
    (hnw : nonnegWaits g) (h0 : 0 ≤ e.time) :
    ∀ (es : List Edge) (pq : List FREntry) (best : List (FRKey × ℚ))
      (parent : List (FRKey × (FRKey × Option String))),
      (∀ ed ∈ es, 0 ≤ ed.time ∧ ed.to_station ∈ stationUniv g src ∧
        ed.line ∈ lineUniv g) →
      ((frRelax g (some k) e es (pq, best, parent)).2.1 = best ∧
        (frRelax g (some k) e es (pq, best, parent)).1 = pq) ∨
      newKeys g src k (frRelax g (some k) e es (pq, best, parent)).2.1 <
        newKeys g src k best ∨
      (newKeys g src k (frRelax g (some k) e es (pq, best, parent)).2.1 =
        newKeys g src k best ∧
        bestFloors (frRelax g (some k) e es (pq, best, parent)).2.1 <
          bestFloors best) := by
  intro es
  induction es with
  | nil => intro pq best parent _; exact Or.inl ⟨rfl, rfl⟩
  | cons ed es ih =>
    intro pq best parent hes
    rw [frRelax_cons_cap]
    by_cases hcap :
        decide ((transferStep g e.station e.line ed.line e.transfers).2 > k) = true
    · rw [if_pos hcap]
      exact ih pq best parent (fun d hd => hes d (List.mem_cons_of_mem _ hd))
    · rw [if_neg hcap]
      have hkle : (transferStep g e.station e.line ed.line e.transfers).2 ≤ k := by
        simp only [decide_eq_true_eq] at hcap
        exact le_of_not_lt hcap
      by_cases himp : frImproves best
          (ed.to_station, ed.line, (transferStep g e.station e.line ed.line e.transfers).2)
          (e.time + (transferStep g e.station e.line ed.line e.transfers).1 + ed.time) = true
      · rw [if_pos himp]
        have hrec := ih
          (pq ++ [FREntry.mk
            (e.time + (transferStep g e.station e.line ed.line e.transfers).1 + ed.time)
            ed.to_station ed.line (transferStep g e.station e.line ed.line e.transfers).2])
          (setD best
            (ed.to_station, ed.line, (transferStep g e.station e.line ed.line e.transfers).2)
            (e.time + (transferStep g e.station e.line ed.line e.transfers).1 + ed.time))
          (setD parent
            (ed.to_station, ed.line, (transferStep g e.station e.line ed.line e.transfers).2)
            (e.key, ed.line))
          (fun d hd => hes d (List.mem_cons_of_mem _ hd))
        cases hlk : lookup best
            (ed.to_station, ed.line,
              (transferStep g e.station e.line ed.line e.transfers).2) with
        | none =>
          have hnewmem : (ed.to_station, ed.line,
              (transferStep g e.station e.line ed.line e.transfers).2) ∈
              keyUniv g src k :=
            mem_keyUniv g src k ed.to_station ed.line _
              (hes ed (List.mem_cons_self _ _)).2.1
              (hes ed (List.mem_cons_self _ _)).2.2 hkle
          have hnc : containsD best (ed.to_station, ed.line,
              (transferStep g e.station e.line ed.line e.transfers).2) = false := by
            simp [containsD, hlk]
          have hstrict := newKeys_setD_new g src k best
            (ed.to_station, ed.line,
              (transferStep g e.station e.line ed.line e.transfers).2)
            (e.time + (transferStep g e.station e.line ed.line e.transfers).1 + ed.time)
            hnewmem hnc
          rcases hrec with ⟨hb, _⟩ | hlt | ⟨heq, _⟩
          · exact Or.inr (Or.inl (by rw [hb]; exact hstrict))
          · exact Or.inr (Or.inl (lt_trans hlt hstrict))
          · exact Or.inr (Or.inl (by rw [heq]; exact hstrict))
        | some b =>
          have hcont : containsD best (ed.to_station, ed.line,
              (transferStep g e.station e.line ed.line e.transfers).2) = true := by
            simp [containsD, hlk]
          have hNeq := newKeys_setD_old g src k best
            (ed.to_station, ed.line,
              (transferStep g e.station e.line ed.line e.transfers).2)
            (e.time + (transferStep g e.station e.line ed.line e.transfers).1 + ed.time)
            hcont
          have himp' : e.time + (transferStep g e.station e.line ed.line e.transfers).1
              + ed.time + eps < b := by
            unfold frImproves at himp
            rw [hlk] at himp
            simpa using himp
          have h0n : 0 ≤ e.time +
              (transferStep g e.station e.line ed.line e.transfers).1 + ed.time := by
            have hp1 := transferStep_fst_nonneg g hnw e.station e.line ed.line e.transfers
            have hd := (hes ed (List.mem_cons_self _ _)).1
            linarith
          have hsum := bestFloors_setD best
            (ed.to_station, ed.line,
              (transferStep g e.station e.line ed.line e.transfers).2) b
            (e.time + (transferStep g e.station e.line ed.line e.transfers).1 + ed.time)
            hlk
          have hfl := floor_lt_floor_eps
            (e.time + (transferStep g e.station e.line ed.line e.transfers).1 + ed.time)
            b h0n himp'
          have hflt : bestFloors (setD best
              (ed.to_station, ed.line,
                (transferStep g e.station e.line ed.line e.transfers).2)
              (e.time + (transferStep g e.station e.line ed.line e.transfers).1
                + ed.time)) < bestFloors best := by
            omega
          rcases hrec with ⟨hb2, _⟩ | hlt | ⟨heq, hfl2⟩
          · exact Or.inr (Or.inr ⟨by rw [hb2]; exact hNeq, by rw [hb2]; exact hflt⟩)
          · exact Or.inr (Or.inl (by rw [← hNeq]; exact hlt))
          · exact Or.inr (Or.inr ⟨heq.trans hNeq, lt_trans hfl2 hflt⟩)
      · rw [if_neg himp]
        exact ih pq best parent (fun d hd => hes d (List.mem_cons_of_mem _ hd))

theorem frLoop_term (g : TransportGraph) (src dst : String) (k : ℕ)
    (hnd : nonnegDurations g) (hnw : nonnegWaits g)
    (hunreach : ∀ es, walksB g src es dst = true → k < walkTrans none es) :
    ∀ (N1 N2 N3 : ℕ) (pq : List FREntry) (best : List (FRKey × ℚ))
      (parent : List (FRKey × (FRKey × Option String))),
      (∀ x ∈ pq, frReal g src k x ∧ 0 ≤ x.time) →
      newKeys g src k best ≤ N1 → bestFloors best ≤ N2 → pq.length ≤ N3 →
      ∃ n, frLoop g src dst (some k) n pq best parent =
        some ((⊤ : WithTop ℚ), []) := by
  intro N1
  induction N1 using Nat.strong_induction_on with
  | _ N1 ih1 =>
  intro N2
  induction N2 using Nat.strong_induction_on with
  | _ N2 ih2 =>
  intro N3
  induction N3 using Nat.strong_induction_on with
  | _ N3 ih3 =>
  intro pq best parent hpq hN1 hN2 hN3
  cases hpop : popMin (·.time) pq with
  | none =>
    have hnil : pq = [] := (popMin_none_iff _ _).mp hpop
    subst hnil
    exact ⟨1, rfl⟩
  | some ep =>
    obtain ⟨e, pq'⟩ := ep
    have hlen := popMin_length _ pq e pq' hpop
    have hpqsub : ∀ x ∈ pq', frReal g src k x ∧ 0 ≤ x.time :=
      fun x hx => hpq x (popMin_subset _ pq e pq' hpop x hx)
    by_cases hstale : frStale best e = true
    · obtain ⟨n, hn⟩ := ih3 pq'.length (by omega) pq' best parent hpqsub hN1 hN2
        (le_refl _)
      refine ⟨n + 1, ?_⟩
      rw [frLoop_succ_pop g src dst (some k) n pq best parent e pq' hpop,
        if_pos hstale]
      exact hn
    · obtain ⟨⟨⟨es0, hw0, hl0, ht0⟩, htr⟩, h0⟩ := hpq e (popMin_mem _ pq e pq' hpop)
      have hne : ¬ (e.station = dst) := by
        intro heq
        rw [heq] at hw0
        have hgt := hunreach es0 hw0
        rw [ht0] at hgt
        omega
      have hedges : ∀ ed ∈ g.routes_from e.station, 0 ≤ ed.time ∧
          ed.to_station ∈ stationUniv g src ∧ ed.line ∈ lineUniv g :=
        fun ed hed => ⟨edge_nonneg_of_mem g hnd e.station ed hed,
          edge_mem_stationUniv g src e.station ed hed,
          edge_mem_lineUniv g e.station ed hed⟩
      have hinv' : ∀ x ∈ (frRelax g (some k) e (g.routes_from e.station)
          (pq', best, parent)).1, frReal g src k x ∧ 0 ≤ x.time := by
        refine frRelax_pq_pred g k e _ (g.routes_from e.station) pq' best parent
          hpqsub ?_
        intro ed hed hdk
        refine ⟨⟨⟨es0 ++ [ed], ?_, ?_, ?_⟩, hdk⟩, ?_⟩
        · exact walksB_snoc g src e.station es0 ed hw0 hed
        · rw [lineAfter_snoc]
        · rw [walkTrans_snoc, ht0, hl0, transferStep_snd_split]
        · have hp1 := transferStep_fst_nonneg g hnw e.station e.line ed.line e.transfers
          have hd := (hedges ed hed).1
          show 0 ≤ e.time +
            (transferStep g e.station e.line ed.line e.transfers).1 + ed.time
          linarith
      rcases frRelax_measure g src k e hnw h0 (g.routes_from e.station) pq' best
          parent hedges with ⟨hbeq, hpeq⟩ | hlt | ⟨heq, hflt⟩
      · obtain ⟨n, hn⟩ := ih3 pq'.length (by omega)
          (frRelax g (some k) e (g.routes_from e.station) (pq', best, parent)).1
          (frRelax g (some k) e (g.routes_from e.station) (pq', best, parent)).2.1
          (frRelax g (some k) e (g.routes_from e.station) (pq', best, parent)).2.2
          hinv' (by rw [hbeq]; exact hN1) (by rw [hbeq]; exact hN2)
          (le_of_eq (by rw [hpeq]))
        refine ⟨n + 1, ?_⟩
        rw [frLoop_succ_pop g src dst (some k) n pq best parent e pq' hpop,
          if_neg hstale, if_neg hne]
        exact hn
      · obtain ⟨n, hn⟩ := ih1
          (newKeys g src k (frRelax g (some k) e (g.routes_from e.station)
            (pq', best, parent)).2.1) (by omega)
          (bestFloors (frRelax g (some k) e (g.routes_from e.station)
            (pq', best, parent)).2.1)
          ((frRelax g (some k) e (g.routes_from e.station) (pq', best, parent)).1.length)
          (frRelax g (some k) e (g.routes_from e.station) (pq', best, parent)).1
          (frRelax g (some k) e (g.routes_from e.station) (pq', best, parent)).2.1
          (frRelax g (some k) e (g.routes_from e.station) (pq', best, parent)).2.2
          hinv' (le_refl _) (le_refl _) (le_refl _)
        refine ⟨n + 1, ?_⟩
        rw [frLoop_succ_pop g src dst (some k) n pq best parent e pq' hpop,
          if_neg hstale, if_neg hne]
        exact hn
      · obtain ⟨n, hn⟩ := ih2
          (bestFloors (frRelax g (some k) e (g.routes_from e.station)
            (pq', best, parent)).2.1) (by omega)
          ((frRelax g (some k) e (g.routes_from e.station) (pq', best, parent)).1.length)
          (frRelax g (some k) e (g.routes_from e.station) (pq', best, parent)).1
          (frRelax g (some k) e (g.routes_from e.station) (pq', best, parent)).2.1
          (frRelax g (some k) e (g.routes_from e.station) (pq', best, parent)).2.2
          hinv' (by rw [heq]; exact hN1) (le_refl _) (le_refl _)
        refine ⟨n + 1, ?_⟩
        rw [frLoop_succ_pop g src dst (some k) n pq best parent e pq' hpop,
          if_neg hstale, if_neg hne]
        exact hn

/-- A helper discharging concrete unreachability: in `Gloop` the isolated
station B is reachable by no stored walk from A (every edge out of A is a
self-loop). -/
theorem gloop_no_walk : ∀ es, walksB Gloop "A" es "B" = false := by
  intro es
  induction es with
  | nil => with_unfolding_all decide
  | cons e es ih =>
    by_cases hmem : e ∈ (lookup Gloop.adj "A").getD []
    · have hadj : (lookup Gloop.adj "A").getD [] =
          [Edge.mk "A" 0 (some "1"), Edge.mk "A" 0 (some "2")] := gloop_routes
      have hto : e.to_station = "A" := by
        rw [hadj] at hmem
        rcases List.mem_cons.mp hmem with h | h
        · rw [h]
        · rcases List.mem_cons.mp h with h | h
          · rw [h]
          · simp at h
      simp only [walksB]
      rw [hto, ih]
      simp
    · simp only [walksB]
      simp [hmem]

/-- Claim C4, amended: the no-path outcome of both searches is exactly
infinite cumulative time paired with the empty path — whenever either
search returns, infinite time and empty path occur together (successes
always carry a finite time and a non-empty path).  When both endpoints
exist but no stored walk reaches the destination, `shortest_path` always
returns that no-path result (it terminates, and any returned value is
`(inf, [])`); likewise, when no stored walk reaches the destination within
the transfer cap, the capped `fastest_route_with_transfers` only ever
returns `(inf, [])`, and terminates when durations and waits are
non-negative.  In the concrete A-B-C two-line scenario,
`fastest_route_with_transfers(A, C)` with `max_transfers = 0` returns the
no-path result.  (The original claim also promised a returned no-path
result for every uncompletable uncapped query, but the counterexample
shows the uncapped search need not return.) -/
theorem claim_C4_amended_no_path_result :
    (∀ (g : TransportGraph) (src dst : String) (fuel : ℕ) (r : RouteResult),
      shortest_path g src dst fuel = some (Except.ok r) → (r.1 = ⊤ ↔ r.2 = [])) ∧
    (∀ (g : TransportGraph) (src dst : String) (cap : Option ℕ) (fuel : ℕ)
      (r : RouteResult),
      fastest_route_with_transfers g src dst cap fuel = some (Except.ok r) →
        (r.1 = ⊤ ↔ r.2 = [])) ∧
    (fastest_route_with_transfers GABC "A" "C" (some 0) 100 =
      some (Except.ok ((⊤ : WithTop ℚ), []))) ∧
    (∀ (g : TransportGraph) (src dst : String) (fuel : ℕ) (r : RouteResult),
      (∀ es, walksB g src es dst = false) →
      shortest_path g src dst fuel = some (Except.ok r) →
        r = ((⊤ : WithTop ℚ), [])) ∧
    (∀ (g : TransportGraph) (src dst : String),
      containsD g.adj src = true → containsD g.adj dst = true →
      (∀ es, walksB g src es dst = false) →
      ∃ fuel, shortest_path g src dst fuel =
        some (Except.ok ((⊤ : WithTop ℚ), []))) ∧
    (∀ (g : TransportGraph) (src dst : String) (k fuel : ℕ) (r : RouteResult),
      (∀ es, walksB g src es dst = true → k < walkTrans none es) →
      fastest_route_with_transfers g src dst (some k) fuel = some (Except.ok r) →
        r = ((⊤ : WithTop ℚ), [])) ∧
    (∀ (g : TransportGraph) (src dst : String) (k : ℕ),
      nonnegDurations g → nonnegWaits g →
      containsD g.adj src = true → containsD g.adj dst = true →
      (∀ es, walksB g src es dst = true → k < walkTrans none es) →
      ∃ fuel, fastest_route_with_transfers g src dst (some k) fuel =
        some (Except.ok ((⊤ : WithTop ℚ), []))) := by
  refine ⟨?_, ?_, by with_unfolding_all decide, ?_, ?_, ?_, ?_⟩
  · intro g src dst fuel r h
    unfold shortest_path at h
    by_cases hc : ¬ containsD g.adj src = true ∨ ¬ containsD g.adj dst = true
    · rw [if_pos hc] at h
      simp at h
    · rw [if_neg hc] at h
      cases hl : spLoop g dst fuel [SPEntry.mk 0 src none none] [(src, 0)] [] with
      | none => rw [hl] at h; simp at h
      | some x =>
        rw [hl] at h
        simp at h
        subst h
        exact spLoop_shape g dst fuel _ _ _ x hl
  · intro g src dst cap fuel r h
    unfold fastest_route_with_transfers at h
    by_cases hc : ¬ containsD g.adj src = true ∨ ¬ containsD g.adj dst = true
    · rw [if_pos hc] at h
      simp at h
    · rw [if_neg hc] at h
      cases hl : frLoop g src dst cap fuel [FREntry.mk 0 src none 0]
          [((src, none, 0), 0)] [] with
      | none => rw [hl] at h; simp at h
      | some x =>
        rw [hl] at h
        simp at h
        subst h
        exact frLoop_shape g src dst cap fuel _ _ _ x hl
  · intro g src dst fuel r hunreach h
    unfold shortest_path at h
    by_cases hc : ¬ containsD g.adj src = true ∨ ¬ containsD g.adj dst = true
    · rw [if_pos hc] at h
      simp at h
    · rw [if_neg hc] at h
      cases hl : spLoop g dst fuel [SPEntry.mk 0 src none none] [(src, 0)] [] with
      | none => rw [hl] at h; simp at h
      | some x =>
        rw [hl] at h
        simp at h
        subst h
        have hseedw : ∀ y ∈ [SPEntry.mk 0 src none none],
            ∃ es, walksB g src es y.station = true := by
          intro y hy
          simp at hy
          subst hy
          exact ⟨[], by simp [walksB]⟩
        exact spLoop_unreach g src dst hunreach fuel
          [SPEntry.mk 0 src none none] [(src, 0)] [] x rfl hseedw hl
  · intro g src dst hsrc hdst hunreach
    have hseedw : ∀ y ∈ [SPEntry.mk 0 src none none],
        ∃ es, walksB g src es y.station = true := by
      intro y hy
      simp at hy
      subst hy
      exact ⟨[], by simp [walksB]⟩
    have hseedu : ∀ y ∈ [SPEntry.mk 0 src none none],
        y.station ∈ stationUniv g src := by
      intro y hy
      simp at hy
      subst hy
      simp [stationUniv]
    obtain ⟨n, hn⟩ := spLoop_term g src dst hunreach
      (spMeasure g src [SPEntry.mk 0 src none none] [])
      [SPEntry.mk 0 src none none] [(src, 0)] [] rfl hseedw hseedu (le_refl _)
    refine ⟨n, ?_⟩
    unfold shortest_path
    rw [if_neg (by simp [hsrc, hdst])]
    rw [hn]
    rfl
  · intro g src dst k fuel r hunreach h
    unfold fastest_route_with_transfers at h
    by_cases hc : ¬ containsD g.adj src = true ∨ ¬ containsD g.adj dst = true
    · rw [if_pos hc] at h
      simp at h
    · rw [if_neg hc] at h
      cases hl : frLoop g src dst (some k) fuel [FREntry.mk 0 src none 0]
          [((src, none, 0), 0)] [] with
      | none => rw [hl] at h; simp at h
      | some x =>
        rw [hl] at h
        simp at h
        subst h
        have hseedr : ∀ y ∈ [FREntry.mk 0 src none 0], frReal g src k y := by
          intro y hy
          simp at hy
          subst hy
          exact ⟨⟨[], by simp [walksB], rfl, rfl⟩, Nat.zero_le k⟩
        exact frLoop_unreach g src dst k hunreach fuel
          [FREntry.mk 0 src none 0] [((src, none, 0), 0)] [] x hseedr hl
  · intro g src dst k hnd hnw hsrc hdst hunreach
    have hseedr : ∀ y ∈ [FREntry.mk 0 src none 0],
        frReal g src k y ∧ 0 ≤ y.time := by
      intro y hy
      simp at hy
      subst hy
      exact ⟨⟨⟨[], by simp [walksB], rfl, rfl⟩, Nat.zero_le k⟩, le_refl 0⟩
    obtain ⟨n, hn⟩ := frLoop_term g src dst k hnd hnw hunreach
      (newKeys g src k [((src, none, 0), 0)]) (bestFloors [((src, none, 0), 0)]) 1
      [FREntry.mk 0 src none 0] [((src, none, 0), 0)] [] hseedr (le_refl _)
      (le_refl _) (by simp)
    refine ⟨n, ?_⟩
    unfold fastest_route_with_transfers
    rw [if_neg (by simp [hsrc, hdst])]
    rw [hn]
    rfl

/-- Witness for the amended C4: the successful concrete query
`shortest_path(A, C)` on the two-line graph has finite time and non-empty
path, instantiating the infinite-time-iff-empty-path equivalence with both
sides false; and on `Gloop`, whose station B no stored walk reaches from A,
the returned values of `shortest_path` and of the capped transfer search at
fuel 10 are pinned to the no-path result by the unreachable-query
clauses. -/
theorem claim_C4_amended_no_path_result_witness :
    (((10 : ℚ) : WithTop ℚ) = ⊤ ↔
      ([("A", none), ("B", some "1"), ("C", some "2")] : List PathStep) = []) ∧
    ((⊤ : WithTop ℚ), ([] : List PathStep)) = ((⊤ : WithTop ℚ), []) ∧
    ((⊤ : WithTop ℚ), ([] : List PathStep)) = ((⊤ : WithTop ℚ), []) :=
  ⟨claim_C4_amended_no_path_result.1 GABC "A" "C" 100
    (((10 : ℚ) : WithTop ℚ), [("A", none), ("B", some "1"), ("C", some "2")])
    (by with_unfolding_all decide),
  claim_C4_amended_no_path_result.2.2.2.1 Gloop "A" "B" 10
    ((⊤ : WithTop ℚ), []) gloop_no_walk (by with_unfolding_all decide),
  claim_C4_amended_no_path_result.2.2.2.2.2.1 Gloop "A" "B" 0 10
    ((⊤ : WithTop ℚ), [])
    (fun es hw => absurd hw (by simp [gloop_no_walk es]))
    (by with_unfolding_all decide)⟩

end Estacao
